import Mathlib

/-!
Verification of the rosdistro commit walker and its storage layer.

Shallow embedding of the relevant parts of `ros_metrics` in Lean 4:
pure classification logic is translated to Lean functions, the sqlite
tables become lists of rows, and external effects (git diffs, HTTP
requests, clones) become explicit oracle parameters.
-/

namespace RosMetrics

/-! ### util.version_compare

The regexes are `(\d+)\.(\d+)\.(\d+)` and `(\d+)\.(\d+)\.(\d+)-(\d+)`,
applied with `re.match` (anchored at the start only).  Since a greedy
`(\d+)` is followed by a non-digit in every position, the regex match is
exactly maximal-munch digit-run parsing. -/

def matchNum (cs : List Char) : Option (String × List Char) :=
  let p := cs.span Char.isDigit
  if p.1.isEmpty then none else some (p.1.asString, p.2)

def matchChar (c : Char) : List Char → Option (List Char)
  | x :: xs => if x = c then some xs else none
  | [] => none

def shortVersionMatch (s : String) : Option (List String) := do
  let (g1, r1) ← matchNum s.data
  let r2 ← matchChar '.' r1
  let (g2, r3) ← matchNum r2
  let r4 ← matchChar '.' r3
  let (g3, _) ← matchNum r4
  pure [g1, g2, g3]

def fullVersionMatch (s : String) : Option (List String) := do
  let (g1, r1) ← matchNum s.data
  let r2 ← matchChar '.' r1
  let (g2, r3) ← matchNum r2
  let r4 ← matchChar '.' r3
  let (g3, r5) ← matchNum r4
  let r6 ← matchChar '-' r5
  let (g4, _) ← matchNum r6
  pure [g1, g2, g3, g4]

def VERSIONS : List String := ["major", "minor", "patch", "build"]

def firstDiff : List String → List String → List String → Option String
  | n :: ns, v1 :: t1, v2 :: t2 =>
    if v1 ≠ v2 then some n else firstDiff ns t1 t2
  | _, _, _ => none

def version_compare (before after : String) : Option String :=
  match fullVersionMatch before, fullVersionMatch after with
  | some g1, some g2 => firstDiff VERSIONS g1 g2
  | _, _ =>
    match shortVersionMatch before, shortVersionMatch after with
    | some g1, some g2 => firstDiff VERSIONS g1 g2
    | _, _ => none

/-- `classify_modification` maps a falsy comparison result to `other`
before emitting a `bump` record (rosdistro.py lines 286-291). -/
def bump_noun (before after : String) : String :=
  (version_compare before after).getD "other"

theorem firstDiff_self (ns g : List String) : firstDiff ns g g = none := by
  induction g generalizing ns with
  | nil => cases ns <;> rfl
  | cons v t ih =>
    cases ns with
    | nil => rfl
    | cons n ns => simp [firstDiff, ih]

theorem full_match_implies_short (s : String) (g : List String)
    (h : fullVersionMatch s = some g) : (shortVersionMatch s).isSome := by
  unfold fullVersionMatch at h
  unfold shortVersionMatch
  cases h1 : matchNum s.data with
  | none => simp [h1] at h
  | some p1 =>
    simp only [h1, Option.bind_eq_bind, Option.some_bind] at h ⊢
    cases h2 : matchChar '.' p1.2 with
    | none => simp [h2] at h
    | some r2 =>
      simp only [h2, Option.some_bind] at h ⊢
      cases h3 : matchNum r2 with
      | none => simp [h3] at h
      | some p2 =>
        simp only [h3, Option.some_bind] at h ⊢
        cases h4 : matchChar '.' p2.2 with
        | none => simp [h4] at h
        | some r4 =>
          simp only [h4, Option.some_bind] at h ⊢
          cases h5 : matchNum r4 with
          | none => simp [h5] at h
          | some p3 => simp [h5]

/-- Claim C5: the version-bump classifier parses both strings as
major.minor.patch-build, falling back to bare major.minor.patch when
either fails the full pattern, and returns the first differing component
name in order major, minor, patch, build, or none when either string
fails to parse or all compared components agree; in particular
1.2.3-4 to 1.2.4-4 is a patch bump, 1.2.3-4 to 2.0.0-4 a major bump,
and identical 1.2.3 yields none, mapped to `other` by the manifest
classifier. -/
theorem claim_C5 :
    version_compare "1.2.3-4" "1.2.4-4" = some "patch" ∧
    version_compare "1.2.3-4" "2.0.0-4" = some "major" ∧
    version_compare "1.2.3" "1.2.3" = none ∧
    bump_noun "1.2.3" "1.2.3" = "other" ∧
    (∀ b a g1 g2, fullVersionMatch b = some g1 → fullVersionMatch a = some g2 →
      version_compare b a = firstDiff VERSIONS g1 g2) ∧
    (∀ b a, shortVersionMatch b = none ∨ shortVersionMatch a = none →
      version_compare b a = none) ∧
    (∀ b a g, fullVersionMatch b = some g → fullVersionMatch a = some g →
      version_compare b a = none) := by
  refine ⟨by decide, by decide, by decide, by decide, ?_, ?_, ?_⟩
  · intro b a g1 g2 hb ha
    simp [version_compare, hb, ha]
  · intro b a h
    have hs : ∀ s : String, shortVersionMatch s = none → fullVersionMatch s = none := by
      intro s hnone
      cases hf : fullVersionMatch s with
      | none => rfl
      | some g =>
        have := full_match_implies_short s g hf
        rw [hnone] at this
        simp at this
    unfold version_compare
    rcases h with h | h <;> rw [hs _ h] <;> [skip; cases fullVersionMatch b] <;> simp [h]
  · intro b a g hb ha
    simp [version_compare, hb, ha, firstDiff_self]

theorem claim_C5_witness :
    fullVersionMatch "1.2.3-4" = some ["1", "2", "3", "4"] ∧
    version_compare "1.2.3-4" "1.2.3-4" = none ∧
    version_compare "nope" "1.2.3" = none := by
  refine ⟨by decide, ?_, ?_⟩
  · exact (claim_C5.2.2.2.2.2.2) "1.2.3-4" "1.2.3-4" ["1", "2", "3", "4"]
      (by decide) (by decide)
  · exact (claim_C5.2.2.2.2.2.1) "nope" "1.2.3" (Or.inl (by decide))

/-! ### metric_db.MetricDB.update

A table is a list of rows; a row is an association list from column name
to value (a column absent from the list is NULL).  `update` counts the
rows matching the key clause, inserts `row_dict` when none matches, and
then applies a column-wise SET to every matching row; the Python loop
skips a column only when `k == replace_key`, which never holds when
`replace_key` is a list of columns. -/

abbrev Row := List (String × String)

def getCol (r : Row) (c : String) : Option String :=
  (r.find? (fun p => decide (p.1 = c))).map (fun p => p.2)

def setAll (r : Row) (c v : String) : Row :=
  r.map (fun p => if p.1 = c then (p.1, v) else p)

def setCol (r : Row) (c v : String) : Row :=
  if r.any (fun p => decide (p.1 = c)) then setAll r c v else r ++ [(c, v)]

inductive DbKey where
  | single (k : String)
  | multi (ks : List String)

def keyCols : DbKey → List String
  | .single k => [k]
  | .multi ks => ks

def skipCol : DbKey → String → Bool
  | .single k, c => decide (c = k)
  | .multi _, _ => false

def matchesKey (rk : DbKey) (vals : Row) (r : Row) : Bool :=
  (keyCols rk).all (fun k => decide (getCol r k = getCol vals k))

def applySets (rk : DbKey) (vals : Row) (r : Row) : Row :=
  vals.foldl (fun acc p => if skipCol rk p.1 then acc else setCol acc p.1 p.2) r

def MetricDB.update (table : List Row) (vals : Row) (rk : DbKey) : List Row :=
  let t1 := if table.countP (fun r => matchesKey rk vals r) = 0
            then table ++ [vals] else table
  t1.map (fun r => if matchesKey rk vals r then applySets rk vals r else r)

theorem getCol_cons_of_eq (p : String × String) (rest : Row) (c : String)
    (hp : p.1 = c) : getCol (p :: rest) c = some p.2 := by
  simp [getCol, List.find?, hp]

theorem getCol_cons_of_ne (p : String × String) (rest : Row) (c : String)
    (hp : p.1 ≠ c) : getCol (p :: rest) c = getCol rest c := by
  simp [getCol, List.find?, hp]

theorem getCol_eq_none (r : Row) (c : String) (h : c ∉ r.map Prod.fst) :
    getCol r c = none := by
  induction r with
  | nil => rfl
  | cons p rest ih =>
    simp only [List.map_cons, List.mem_cons, not_or] at h
    rw [getCol_cons_of_ne p rest c (fun hh => h.1 hh.symm)]
    exact ih h.2

theorem getCol_setAll_self (r : Row) (c v : String)
    (h : r.any (fun p => decide (p.1 = c)) = true) :
    getCol (setAll r c v) c = some v := by
  induction r with
  | nil => simp at h
  | cons p rest ih =>
    by_cases hpc : p.1 = c
    · simp only [setAll, List.map_cons, hpc, if_true]
      exact getCol_cons_of_eq (c, v) _ c rfl
    · simp only [setAll, List.map_cons, hpc, if_false]
      rw [getCol_cons_of_ne p _ c hpc]
      apply ih
      rcases List.any_eq_true.mp h with ⟨q, hq, hb⟩
      rcases List.mem_cons.mp hq with hq1 | hq2
      · rw [hq1] at hb
        exact absurd (of_decide_eq_true hb) hpc
      · exact List.any_eq_true.mpr ⟨q, hq2, hb⟩

theorem getCol_setAll_other (r : Row) (c v c' : String) (h : c' ≠ c) :
    getCol (setAll r c v) c' = getCol r c' := by
  induction r with
  | nil => rfl
  | cons p rest ih =>
    by_cases hpc : p.1 = c
    · have hne : p.1 ≠ c' := by rw [hpc]; exact fun hh => h hh.symm
      have hstep : setAll (p :: rest) c v = (p.1, v) :: setAll rest c v := by
        simp only [setAll, List.map_cons]
        rw [if_pos hpc]
      rw [hstep, getCol_cons_of_ne (p.1, v) _ c' hne, getCol_cons_of_ne p rest c' hne]
      exact ih
    · simp only [setAll, List.map_cons, hpc, if_false]
      by_cases hc' : p.1 = c'
      · rw [getCol_cons_of_eq p _ c' hc', getCol_cons_of_eq p rest c' hc']
      · rw [getCol_cons_of_ne p _ c' hc', getCol_cons_of_ne p rest c' hc']
        exact ih

theorem getCol_snoc_self (r : Row) (c v : String)
    (h : r.any (fun p => decide (p.1 = c)) = false) :
    getCol (r ++ [(c, v)]) c = some v := by
  induction r with
  | nil => exact getCol_cons_of_eq (c, v) [] c rfl
  | cons p rest ih =>
    simp only [List.any_cons, Bool.or_eq_false_iff, decide_eq_false_iff_not] at h
    simp only [List.cons_append]
    rw [getCol_cons_of_ne p _ c h.1]
    exact ih h.2

theorem getCol_snoc_other (r : Row) (c v c' : String) (h : c' ≠ c) :
    getCol (r ++ [(c, v)]) c' = getCol r c' := by
  induction r with
  | nil =>
    simp only [List.nil_append]
    exact getCol_cons_of_ne (c, v) [] c' (fun hh => h hh.symm)
  | cons p rest ih =>
    simp only [List.cons_append]
    by_cases hc' : p.1 = c'
    · rw [getCol_cons_of_eq p _ c' hc', getCol_cons_of_eq p rest c' hc']
    · rw [getCol_cons_of_ne p _ c' hc', getCol_cons_of_ne p rest c' hc']
      exact ih

theorem getCol_setCol_self (r : Row) (c v : String) :
    getCol (setCol r c v) c = some v := by
  unfold setCol
  by_cases hany : r.any (fun p => decide (p.1 = c)) = true
  · rw [if_pos hany]
    exact getCol_setAll_self r c v hany
  · rw [if_neg hany]
    exact getCol_snoc_self r c v (Bool.not_eq_true _ ▸ eq_false_of_ne_true hany)

theorem getCol_setCol_other (r : Row) (c v c' : String) (h : c' ≠ c) :
    getCol (setCol r c v) c' = getCol r c' := by
  unfold setCol
  by_cases hany : r.any (fun p => decide (p.1 = c)) = true
  · rw [if_pos hany]
    exact getCol_setAll_other r c v c' h
  · rw [if_neg hany]
    exact getCol_snoc_other r c v c' h

theorem getCol_applySets_none (rk : DbKey) (vals : Row) (r : Row) (c : String)
    (hv : getCol vals c = none) :
    getCol (applySets rk vals r) c = getCol r c := by
  induction vals generalizing r with
  | nil => rfl
  | cons p rest ih =>
    have hpc : p.1 ≠ c := by
      intro hh
      rw [getCol_cons_of_eq p rest c hh] at hv
      cases hv
    rw [getCol_cons_of_ne p rest c hpc] at hv
    have step : applySets rk (p :: rest) r
        = applySets rk rest (if skipCol rk p.1 then r else setCol r p.1 p.2) := rfl
    rw [step, ih _ hv]
    by_cases hskip : skipCol rk p.1 = true
    · rw [if_pos hskip]
    · rw [if_neg hskip]
      exact getCol_setCol_other r p.1 p.2 c (fun hh => hpc hh.symm)

theorem getCol_applySets_some (rk : DbKey) (vals : Row) (r : Row) (c v : String)
    (hnodup : (vals.map Prod.fst).Nodup) (hv : getCol vals c = some v) :
    getCol (applySets rk vals r) c
      = if skipCol rk c then getCol r c else some v := by
  induction vals generalizing r with
  | nil => cases hv
  | cons p rest ih =>
    simp only [List.map_cons, List.nodup_cons] at hnodup
    have step : applySets rk (p :: rest) r
        = applySets rk rest (if skipCol rk p.1 then r else setCol r p.1 p.2) := rfl
    rw [step]
    by_cases hc : p.1 = c
    · have hval : v = p.2 := by
        rw [getCol_cons_of_eq p rest c hc] at hv
        exact (Option.some.injEq _ _ ▸ hv :).symm
      have hrest : getCol rest c = none := by
        apply getCol_eq_none
        rw [← hc]
        exact hnodup.1
      rw [getCol_applySets_none rk rest _ c hrest, hval]
      by_cases hskip : skipCol rk p.1 = true
      · have hskc : skipCol rk c = true := by rw [← hc]; exact hskip
        rw [if_pos hskip, if_pos hskc]
      · have hskc : ¬ skipCol rk c = true := by rw [← hc]; exact hskip
        rw [if_neg hskip, if_neg hskc, ← hc]
        exact getCol_setCol_self r p.1 p.2
    · rw [getCol_cons_of_ne p rest c hc] at hv
      rw [ih _ hnodup.2 hv]
      have hr : getCol (if skipCol rk p.1 then r else setCol r p.1 p.2) c = getCol r c := by
        by_cases hskip : skipCol rk p.1 = true
        · rw [if_pos hskip]
        · rw [if_neg hskip]
          exact getCol_setCol_other r p.1 p.2 c (fun hh => hc hh.symm)
      rw [hr]

theorem matchesKey_self (rk : DbKey) (vals : Row) :
    matchesKey rk vals vals = true := by
  simp [matchesKey, List.all_eq_true]

theorem matchesKey_applySets (rk : DbKey) (vals : Row) (r : Row)
    (hnodup : (vals.map Prod.fst).Nodup)
    (hm : matchesKey rk vals r = true) :
    matchesKey rk vals (applySets rk vals r) = true := by
  simp only [matchesKey, List.all_eq_true, decide_eq_true_eq] at hm ⊢
  intro k hk
  cases hv : getCol vals k with
  | none =>
    rw [getCol_applySets_none rk vals r k hv, hm k hk, hv]
  | some v =>
    rw [getCol_applySets_some rk vals r k v hnodup hv]
    by_cases hskip : skipCol rk k = true
    · rw [if_pos hskip, hm k hk, hv]
    · rw [if_neg hskip]

theorem eq_of_mem_nodup_keys (vals : Row)
    (hnodup : (vals.map Prod.fst).Nodup) (p q : String × String)
    (hp : p ∈ vals) (hq : q ∈ vals) (h : p.1 = q.1) : p = q := by
  induction vals with
  | nil => cases hp
  | cons a rest ih =>
    simp only [List.map_cons, List.nodup_cons] at hnodup
    rcases List.mem_cons.mp hp with hp1 | hp1 <;>
      rcases List.mem_cons.mp hq with hq1 | hq1
    · rw [hp1, hq1]
    · exfalso
      apply hnodup.1
      rw [← hp1, h]
      exact List.mem_map.mpr ⟨q, hq1, rfl⟩
    · exfalso
      apply hnodup.1
      rw [← hq1, ← h]
      exact List.mem_map.mpr ⟨p, hp1, rfl⟩
    · exact ih hnodup.2 hp1 hq1

theorem applySets_id (rk : DbKey) (vals' vals : Row)
    (hnodup : (vals.map Prod.fst).Nodup)
    (hsub : ∀ p ∈ vals', p ∈ vals) :
    vals'.foldl (fun acc p => if skipCol rk p.1 then acc else setCol acc p.1 p.2) vals
      = vals := by
  induction vals' with
  | nil => rfl
  | cons p rest ih =>
    have hp : p ∈ vals := hsub p (List.mem_cons_self p rest)
    have hstep : (if skipCol rk p.1 then vals else setCol vals p.1 p.2) = vals := by
      by_cases hskip : skipCol rk p.1 = true
      · rw [if_pos hskip]
      · rw [if_neg hskip]
        have hany : vals.any (fun q => decide (q.1 = p.1)) = true :=
          List.any_eq_true.mpr ⟨p, hp, by simp⟩
        unfold setCol
        rw [if_pos hany]
        unfold setAll
        conv_rhs => rw [← List.map_id vals]
        apply List.map_congr_left
        intro q hq
        by_cases hqp : q.1 = p.1
        · have hqeq : q = p := eq_of_mem_nodup_keys vals hnodup q p hq hp hqp
          subst hqeq
          simp
        · simp [hqp]
    simp only [List.foldl_cons, hstep]
    exact ih (fun q hq => hsub q (List.mem_cons_of_mem p hq))

theorem applySets_self (rk : DbKey) (vals : Row)
    (hnodup : (vals.map Prod.fst).Nodup) :
    applySets rk vals vals = vals :=
  applySets_id rk vals vals hnodup (fun _ h => h)

theorem countP_map_matching (rk : DbKey) (vals : Row)
    (hnodup : (vals.map Prod.fst).Nodup) (l : List Row) :
    (l.map (fun r => if matchesKey rk vals r then applySets rk vals r else r)).countP
        (fun r => matchesKey rk vals r)
      = l.countP (fun r => matchesKey rk vals r) := by
  induction l with
  | nil => rfl
  | cons r rest ih =>
    simp only [List.map_cons, List.countP_cons]
    by_cases hm : matchesKey rk vals r = true
    · rw [if_pos hm]
      have hm2 := matchesKey_applySets rk vals r hnodup hm
      simp [hm, hm2, ih]
    · rw [if_neg hm]
      simp [ih]

theorem skipCol_mem_keyCols (rk : DbKey) (c : String)
    (h : skipCol rk c = true) : c ∈ keyCols rk := by
  cases rk with
  | single k =>
    have : c = k := of_decide_eq_true h
    rw [this]
    exact List.mem_cons_self k []
  | multi ks => cases h

/-- Claim C6 counterexample: on a table already holding two rows that
match the key, `update` updates both, so more than one row matching the
key remains afterwards, refuting the claim that exactly one row matching
the key exists after every update. -/
theorem claim_C6_cex :
    ¬ ((MetricDB.update
        [[("a", "1"), ("b", "x")], [("a", "1"), ("b", "y")]]
        [("a", "1"), ("b", "z")] (DbKey.single "a")).countP
        (fun r => matchesKey (DbKey.single "a") [("a", "1"), ("b", "z")] r) = 1) := by
  decide

/-- Claim C6 (amended): `update` is a sparse upsert acting on every row
matching the key: when no row matches, the row mapping is inserted as a
new row; every matching row gets each non-key column of the row mapping
SET while its other columns keep their values; afterwards every matching
row carries the row mapping's values, and when at most one row matched
beforehand, exactly one row matches afterwards. -/
theorem claim_C6 (table : List Row) (vals : Row) (rk : DbKey)
    (hnodup : (vals.map Prod.fst).Nodup) :
    (table.countP (fun r => matchesKey rk vals r) = 0 →
      MetricDB.update table vals rk = table ++ [vals]) ∧
    ((MetricDB.update table vals rk).countP (fun r => matchesKey rk vals r)
      = if table.countP (fun r => matchesKey rk vals r) = 0 then 1
        else table.countP (fun r => matchesKey rk vals r)) ∧
    (table.countP (fun r => matchesKey rk vals r) ≤ 1 →
      (MetricDB.update table vals rk).countP (fun r => matchesKey rk vals r) = 1) ∧
    (∀ r ∈ MetricDB.update table vals rk, matchesKey rk vals r = true →
      ∀ c v, getCol vals c = some v → getCol r c = some v) ∧
    (∀ r0 ∈ table, matchesKey rk vals r0 = true →
      applySets rk vals r0 ∈ MetricDB.update table vals rk ∧
      ∀ c, getCol vals c = none →
        getCol (applySets rk vals r0) c = getCol r0 c) ∧
    (∀ r0 ∈ table, matchesKey rk vals r0 = false →
      r0 ∈ MetricDB.update table vals rk) := by
  refine ⟨?_, ?_, ?_, ?_, ?_, ?_⟩
  · intro h0
    unfold MetricDB.update
    simp only [h0, if_pos, List.map_append, List.map_cons, List.map_nil]
    have htab : table.map
        (fun r => if matchesKey rk vals r then applySets rk vals r else r) = table := by
      conv_rhs => rw [← List.map_id table]
      apply List.map_congr_left
      intro r hr
      have : ¬ matchesKey rk vals r = true := by
        have := List.countP_eq_zero.mp h0 r hr
        simpa using this
      simp [this]
    rw [htab]
    have hvals : (if matchesKey rk vals vals then applySets rk vals vals else vals)
        = vals := by
      rw [if_pos (matchesKey_self rk vals)]
      exact applySets_self rk vals hnodup
    rw [hvals]
  · unfold MetricDB.update
    by_cases h0 : table.countP (fun r => matchesKey rk vals r) = 0
    · simp only [h0, if_pos]
      rw [countP_map_matching rk vals hnodup, List.countP_append, h0]
      simp [matchesKey_self rk vals, List.countP_cons]
    · simp only [h0, if_neg, if_false]
      rw [countP_map_matching rk vals hnodup]
  · intro h1
    by_cases h0 : table.countP (fun r => matchesKey rk vals r) = 0
    · have h2 : (MetricDB.update table vals rk).countP
          (fun r => matchesKey rk vals r)
          = if table.countP (fun r => matchesKey rk vals r) = 0 then 1
            else table.countP (fun r => matchesKey rk vals r) := by
        unfold MetricDB.update
        simp only [h0, if_pos]
        rw [countP_map_matching rk vals hnodup, List.countP_append, h0]
        simp [matchesKey_self rk vals, List.countP_cons]
      rw [h2, if_pos h0]
    · have h2 : (MetricDB.update table vals rk).countP
          (fun r => matchesKey rk vals r)
          = table.countP (fun r => matchesKey rk vals r) := by
        unfold MetricDB.update
        simp only [h0, if_neg, if_false]
        rw [countP_map_matching rk vals hnodup]
      rw [h2]
      omega
  · intro r hr hmr c v hvc
    unfold MetricDB.update at hr
    rcases List.mem_map.mp hr with ⟨r0, hr0, hfr⟩
    by_cases hm0 : matchesKey rk vals r0 = true
    · rw [if_pos hm0] at hfr
      by_cases hskip : skipCol rk c = true
      · have hck := skipCol_mem_keyCols rk c hskip
        simp only [matchesKey, List.all_eq_true, decide_eq_true_eq] at hmr
        rw [hmr c hck, hvc]
      · rw [← hfr, getCol_applySets_some rk vals r0 c v hnodup hvc, if_neg hskip]
    · rw [if_neg hm0] at hfr
      rw [← hfr] at hmr
      exact absurd hmr hm0
  · intro r0 hr0 hm0
    constructor
    · unfold MetricDB.update
      have hmem : r0 ∈ (if table.countP (fun r => matchesKey rk vals r) = 0
          then table ++ [vals] else table) := by
        by_cases h0 : table.countP (fun r => matchesKey rk vals r) = 0
        · rw [if_pos h0]
          exact List.mem_append_left _ hr0
        · rw [if_neg h0]
          exact hr0
      have := List.mem_map_of_mem
        (fun r => if matchesKey rk vals r then applySets rk vals r else r) hmem
      simpa [hm0] using this
    · intro c hc
      exact getCol_applySets_none rk vals r0 c hc
  · intro r0 hr0 hm0
    unfold MetricDB.update
    have hmem : r0 ∈ (if table.countP (fun r => matchesKey rk vals r) = 0
        then table ++ [vals] else table) := by
      by_cases h0 : table.countP (fun r => matchesKey rk vals r) = 0
      · rw [if_pos h0]
        exact List.mem_append_left _ hr0
      · rw [if_neg h0]
        exact hr0
    have := List.mem_map_of_mem
      (fun r => if matchesKey rk vals r then applySets rk vals r else r) hmem
    simpa [hm0] using this

theorem claim_C6_witness :
    MetricDB.update [[("id", "7"), ("date", "5")]]
        [("id", "7"), ("date", "3")] (DbKey.single "id")
      ≠ [] ∧
    (MetricDB.update [[("id", "7"), ("date", "5")]]
        [("id", "7"), ("date", "3")] (DbKey.single "id")).countP
        (fun r => matchesKey (DbKey.single "id") [("id", "7"), ("date", "3")] r)
      = 1 := by
  constructor
  · decide
  · exact (claim_C6 [[("id", "7"), ("date", "5")]]
      [("id", "7"), ("date", "3")] (DbKey.single "id") (by decide)).2.2.1 (by decide)

/-! ### rosdistro.count_repos

The repository snapshot is the multilevel mapping restricted to what
`count_repos` reads: each present distro paired with the list of its
repository names (keys of the per-distro dictionary).  The repo_count
table is a list of rows.  `ros1_distros` comes from a data file outside
the sources, so it is a parameter. -/

structure RepoCountRow where
  commit_id : Nat
  distro : String
  count : Nat
deriving DecidableEq, Repr

def count_repos (ros1_distros : List String) (rows : List RepoCountRow)
    (commit_id : Nat) (repositories : List (String × List String)) :
    List RepoCountRow :=
  let kept := rows.filter (fun r => decide (r.commit_id ≠ commit_id))
  let distroRows := repositories.map
    (fun p => RepoCountRow.mk commit_id p.1 p.2.dedup.length)
  let all_names := ((repositories.map Prod.snd).flatten).dedup
  kept ++ distroRows ++
    (if all_names ≠ [] ∧ repositories.any (fun p => decide (p.1 ∈ ros1_distros)) = true
     then [RepoCountRow.mk commit_id "all" all_names.length] else [])

theorem count_repos_cond (ros1 : List String)
    (repositories : List (String × List String))
    (hne : ∀ p ∈ repositories, p.2 ≠ []) :
    (((repositories.map Prod.snd).flatten).dedup ≠ [] ∧
      repositories.any (fun p => decide (p.1 ∈ ros1)) = true) ↔
    ∃ p ∈ repositories, p.1 ∈ ros1 := by
  constructor
  · intro h
    rcases List.any_eq_true.mp h.2 with ⟨p, hp, hb⟩
    exact ⟨p, hp, of_decide_eq_true hb⟩
  · intro h
    rcases h with ⟨p, hp, hmem⟩
    constructor
    · intro hnil
      have hjoin : (repositories.map Prod.snd).flatten = [] :=
        (List.dedup_eq_nil _).mp (by simpa using hnil)
      have hpne := hne p hp
      cases hx : p.2 with
      | nil => exact hpne hx
      | cons x xs =>
        have : x ∈ (repositories.map Prod.snd).flatten := by
          apply List.mem_flatten.mpr
          exact ⟨p.2, List.mem_map.mpr ⟨p, hp, rfl⟩, by rw [hx]; exact List.mem_cons_self x xs⟩
        rw [hjoin] at this
        cases this
    · exact List.any_eq_true.mpr ⟨p, hp, decide_eq_true hmem⟩

/-- Claim C4: a RepoCount checkpoint deletes every repo_count row of the
sampled commit and then inserts one row per present distro counting its
distinct repository names, plus a sentinel `all` row counting the union
exactly when at least one present distro is a first-generation (ROS 1)
channel; a snapshot whose present distros are all second-generation never
produces an `all` row. -/
theorem claim_C4 (ros1 : List String) (rows : List RepoCountRow) (cid : Nat)
    (repositories : List (String × List String))
    (hne : ∀ p ∈ repositories, p.2 ≠ [])
    (hall : ∀ p ∈ repositories, p.1 ≠ "all") :
    ((count_repos ros1 rows cid repositories).filter
        (fun r => decide (r.commit_id ≠ cid))
      = rows.filter (fun r => decide (r.commit_id ≠ cid))) ∧
    ((count_repos ros1 rows cid repositories).filter
        (fun r => decide (r.commit_id = cid))
      = repositories.map (fun p => RepoCountRow.mk cid p.1 p.2.dedup.length)
        ++ (if ∃ p ∈ repositories, p.1 ∈ ros1
            then [RepoCountRow.mk cid "all"
                    (((repositories.map Prod.snd).flatten).dedup.length)]
            else [])) ∧
    ((∃ r ∈ count_repos ros1 rows cid repositories,
        r.commit_id = cid ∧ r.distro = "all") ↔
      ∃ p ∈ repositories, p.1 ∈ ros1) := by
  have hkept : ∀ r ∈ rows.filter (fun r => decide (r.commit_id ≠ cid)),
      r.commit_id ≠ cid := by
    intro r hr
    exact of_decide_eq_true (List.mem_filter.mp hr).2
  have hnews : ∀ r ∈ repositories.map
      (fun p => RepoCountRow.mk cid p.1 p.2.dedup.length), r.commit_id = cid := by
    intro r hr
    rcases List.mem_map.mp hr with ⟨p, _, hp⟩
    rw [← hp]
  have halls : ∀ r ∈ (if (((repositories.map Prod.snd).flatten).dedup ≠ [] ∧
      repositories.any (fun p => decide (p.1 ∈ ros1)) = true)
      then [RepoCountRow.mk cid "all" (((repositories.map Prod.snd).flatten).dedup.length)]
      else []), r.commit_id = cid ∧ r.distro = "all" := by
    intro r hr
    by_cases hcond : (((repositories.map Prod.snd).flatten).dedup ≠ [] ∧
        repositories.any (fun p => decide (p.1 ∈ ros1)) = true)
    · rw [if_pos hcond] at hr
      rcases List.mem_cons.mp hr with h | h
      · rw [h]
        exact ⟨rfl, rfl⟩
      · cases h
    · rw [if_neg hcond] at hr
      cases hr
  refine ⟨?_, ?_, ?_⟩
  · unfold count_repos
    rw [List.filter_append, List.filter_append]
    have h1 : (rows.filter (fun r => decide (r.commit_id ≠ cid))).filter
        (fun r => decide (r.commit_id ≠ cid))
        = rows.filter (fun r => decide (r.commit_id ≠ cid)) := by
      apply List.filter_eq_self.mpr
      intro r hr
      exact decide_eq_true (hkept r hr)
    have h2 : (repositories.map
        (fun p => RepoCountRow.mk cid p.1 p.2.dedup.length)).filter
        (fun r => decide (r.commit_id ≠ cid)) = [] := by
      apply List.filter_eq_nil_iff.mpr
      intro r hr
      simp [hnews r hr]
    have h3 : ((if (((repositories.map Prod.snd).flatten).dedup ≠ [] ∧
        repositories.any (fun p => decide (p.1 ∈ ros1)) = true)
        then [RepoCountRow.mk cid "all"
                (((repositories.map Prod.snd).flatten).dedup.length)]
        else []) : List RepoCountRow).filter
        (fun r => decide (r.commit_id ≠ cid)) = [] := by
      apply List.filter_eq_nil_iff.mpr
      intro r hr
      simp [(halls r hr).1]
    rw [h1, h2, h3, List.append_nil, List.append_nil]
  · unfold count_repos
    rw [List.filter_append, List.filter_append]
    have h1 : (rows.filter (fun r => decide (r.commit_id ≠ cid))).filter
        (fun r => decide (r.commit_id = cid)) = [] := by
      apply List.filter_eq_nil_iff.mpr
      intro r hr
      simp [hkept r hr]
    have h2 : (repositories.map
        (fun p => RepoCountRow.mk cid p.1 p.2.dedup.length)).filter
        (fun r => decide (r.commit_id = cid))
        = repositories.map (fun p => RepoCountRow.mk cid p.1 p.2.dedup.length) := by
      apply List.filter_eq_self.mpr
      intro r hr
      exact decide_eq_true (hnews r hr)
    have h3 : ((if (((repositories.map Prod.snd).flatten).dedup ≠ [] ∧
        repositories.any (fun p => decide (p.1 ∈ ros1)) = true)
        then [RepoCountRow.mk cid "all"
                (((repositories.map Prod.snd).flatten).dedup.length)]
        else []) : List RepoCountRow).filter
        (fun r => decide (r.commit_id = cid))
        = (if ∃ p ∈ repositories, p.1 ∈ ros1
           then [RepoCountRow.mk cid "all"
                   (((repositories.map Prod.snd).flatten).dedup.length)]
           else []) := by
      by_cases hcond : (((repositories.map Prod.snd).flatten).dedup ≠ [] ∧
          repositories.any (fun p => decide (p.1 ∈ ros1)) = true)
      · rw [if_pos hcond, if_pos ((count_repos_cond ros1 repositories hne).mp hcond)]
        simp
      · rw [if_neg hcond,
            if_neg (fun hx => hcond ((count_repos_cond ros1 repositories hne).mpr hx))]
        simp
    rw [h1, h2, h3, List.nil_append]
  · constructor
    · intro h
      rcases h with ⟨r, hr, hcid, hdistro⟩
      unfold count_repos at hr
      rcases List.mem_append.mp hr with hr1 | hr2
      · rcases List.mem_append.mp hr1 with hr3 | hr4
        · exact absurd hcid (hkept r hr3)
        · rcases List.mem_map.mp hr4 with ⟨p, hp, hpr⟩
          exfalso
          apply hall p hp
          rw [← hpr] at hdistro
          exact hdistro
      · have hc : (((repositories.map Prod.snd).flatten).dedup ≠ [] ∧
            repositories.any (fun p => decide (p.1 ∈ ros1)) = true) := by
          by_contra hcond
          rw [if_neg hcond] at hr2
          cases hr2
        exact (count_repos_cond ros1 repositories hne).mp hc
    · intro h
      have hc := (count_repos_cond ros1 repositories hne).mpr h
      refine ⟨RepoCountRow.mk cid "all"
        (((repositories.map Prod.snd).flatten).dedup.length), ?_, rfl, rfl⟩
      unfold count_repos
      apply List.mem_append_right
      rw [if_pos hc]
      exact List.mem_cons_self _ []

theorem claim_C4_witness :
    ((∃ r ∈ count_repos ["melodic"] [RepoCountRow.mk 0 "stale" 9]
        0 [("melodic", ["r1", "r2"]), ("foxy", ["r2", "r3"])],
        r.commit_id = 0 ∧ r.distro = "all") ↔
      ∃ p ∈ [("melodic", ["r1", "r2"]), ("foxy", ["r2", "r3"])],
        p.1 ∈ ["melodic"]) ∧
    ¬ (∃ r ∈ count_repos ["melodic"] [] 0 [("foxy", ["r2", "r3"])],
        r.commit_id = 0 ∧ r.distro = "all") := by
  constructor
  · exact (claim_C4 ["melodic"] [RepoCountRow.mk 0 "stale" 9] 0
      [("melodic", ["r1", "r2"]), ("foxy", ["r2", "r3"])]
      (by decide) (by decide)).2.2
  · intro h
    have h2 := (claim_C4 ["melodic"] [] 0 [("foxy", ["r2", "r3"])]
      (by decide) (by decide)).2.2.mp h
    rcases h2 with ⟨p, hp, hmem⟩
    rcases List.mem_cons.mp hp with h3 | h3
    · rw [h3] at hmem
      simp at hmem
    · cases h3

/-! ### repo_utils.resolve

HTTP is an oracle mapping a URL to a response: a status with a Location
header, a connection timeout (re-raised by the code), or any other
request failure (logged, function returns None).  The unbounded while
loop is given explicit fuel; running out of fuel models a
non-terminating redirect chain.  Python string primitives startswith,
endswith and url[:-1] are modelled over character lists. -/

instance {e a : Type} [DecidableEq e] [DecidableEq a] :
    DecidableEq (Except e a)
  | .ok x, .ok y =>
    if h : x = y then isTrue (by rw [h])
    else isFalse (by intro hh; cases hh; exact h rfl)
  | .error x, .error y =>
    if h : x = y then isTrue (by rw [h])
    else isFalse (by intro hh; cases hh; exact h rfl)
  | .ok _, .error _ => isFalse (by intro hh; cases hh)
  | .error _, .ok _ => isFalse (by intro hh; cases hh)

inductive NetResp where
  | resp (status : Nat) (location : String)
  | timeout
  | failed
deriving DecidableEq

def redirectLoop (net : String → NetResp) : Nat → String →
    Option (Except Unit (Option String))
  | 0, _ => none
  | fuel + 1, url =>
    match net url with
    | .resp s loc =>
      if s = 301 then redirectLoop net fuel loc else some (.ok (some url))
    | .timeout => some (.error ())
    | .failed => some (.ok none)

def strStartsWith (s pre : String) : Bool :=
  pre.data.isPrefixOf s.data

def strEndsWith (s suff : String) : Bool :=
  suff.data.reverse.isPrefixOf s.data.reverse

def strDropLast (s : String) : String :=
  s.data.dropLast.asString

/-- Split a character list at its first slash; the part before must be
nonempty (the single non-slash group of GITHUB_URI_PATTERN). -/
def splitFirstSlash : List Char → Option (List Char × List Char)
  | [] => none
  | c :: rest =>
    if c = '/' then some ([], rest)
    else
      match splitFirstSlash rest with
      | some p => some (c :: p.1, p.2)
      | none => none

/-- GITHUB_URI_PATTERN: for a url of shape git://github.com/org/repo
with an optional trailing .git (consumed by the optional group whenever
dropping it leaves the lazily-matched repo group nonempty), return the
pair (org, repo). -/
def githubUriParse (url : String) : Option (String × String) :=
  if strStartsWith url "git://github.com/" then
    match splitFirstSlash (url.data.drop 17) with
    | some (org, rest2) =>
      if org = [] then none
      else if rest2 = [] then none
      else
        let repo :=
          if 4 < rest2.length ∧ rest2.drop (rest2.length - 4) = ".git".data
          then rest2.take (rest2.length - 4) else rest2
        some (org.asString, repo.asString)
    | none => none
  else none

def githubUriRewrite (url : String) : String :=
  match githubUriParse url with
  | some p => "https://github.com/" ++ p.1 ++ "/" ++ p.2 ++ ".git"
  | none => url

/-- The two suffix fixups applied after the redirect loop, in source
order: re-append a dropped .git, then strip a gained trailing slash. -/
def fixSuffix (original final : String) : String :=
  let f1 := if strEndsWith original ".git" && ! strEndsWith final ".git"
            then final ++ ".git" else final
  if ! strEndsWith original "/" && strEndsWith f1 "/" then strDropLast f1 else f1

def resolve (net : String → NetResp) (fuel : Nat) (url : String) :
    Option (Except Unit (Option String)) :=
  if strStartsWith url "git@" then some (.ok (some url))
  else
    match redirectLoop net fuel (githubUriRewrite url) with
    | none => none
    | some (.error e) => some (.error e)
    | some (.ok none) => some (.ok none)
    | some (.ok (some final)) =>
      some (.ok (some (fixSuffix (githubUriRewrite url) final)))

theorem endsWith_append_git (f : String) :
    strEndsWith (f ++ ".git") "/" = false := by
  unfold strEndsWith
  rw [String.data_append, List.reverse_append]
  rfl

theorem not_slash_of_git (s : String) (h : strEndsWith s ".git" = true) :
    strEndsWith s "/" = false := by
  unfold strEndsWith at h ⊢
  cases hrev : s.data.reverse with
  | nil =>
    rw [hrev] at h
    exact absurd h (by decide)
  | cons c rest =>
    rw [hrev] at h
    have h2 : (('t' == c) && List.isPrefixOf ['i', 'g', '.'] rest) = true := h
    have hc : c = 't' := (eq_of_beq ((Bool.and_eq_true _ _).mp h2).1).symm
    rw [hc]
    rfl

def net8 : String → NetResp := fun u =>
  if u = "https://a/" then .resp 301 "https://b" else .resp 200 ""

/-- Claim C8 counterexample: the original url ends with a slash, the
redirect target does not, and resolve returns the slashless target:
the trailing slash of the original is not preserved. -/
theorem claim_C8_cex :
    resolve net8 2 "https://a/" = some (Except.ok (some "https://b")) ∧
    strEndsWith "https://a/" "/" = true ∧
    strEndsWith "https://b" "/" = false := by
  refine ⟨by decide, by decide, by decide⟩

/-- Claim C8 (amended): resolve returns an SSH-style url unchanged;
otherwise it follows 301 redirects until a non-301 response, re-appends
a .git suffix the original had and the resolved url dropped, and removes
a trailing slash the resolved url gained when the original had none (a
trailing slash the resolution dropped is not restored); a connection
timeout propagates as the exceptional result and any other request
failure yields none. -/
theorem claim_C8 (net : String → NetResp) (fuel : Nat) (url : String) :
    (strStartsWith url "git@" = true →
      resolve net fuel url = some (.ok (some url))) ∧
    (strStartsWith url "git@" = false →
      (∀ f, redirectLoop net fuel (githubUriRewrite url) = some (.ok (some f)) →
        resolve net fuel url
          = some (.ok (some (fixSuffix (githubUriRewrite url) f)))) ∧
      (redirectLoop net fuel (githubUriRewrite url) = some (.error ()) →
        resolve net fuel url = some (.error ())) ∧
      (redirectLoop net fuel (githubUriRewrite url) = some (.ok none) →
        resolve net fuel url = some (.ok none))) ∧
    (∀ s loc, net url = .resp s loc → s ≠ 301 →
      redirectLoop net (fuel + 1) url = some (.ok (some url))) ∧
    (∀ loc, net url = .resp 301 loc →
      redirectLoop net (fuel + 1) url = redirectLoop net fuel loc) ∧
    (∀ f, strEndsWith url ".git" = true → strEndsWith f ".git" = false →
      fixSuffix url f = f ++ ".git") ∧
    (∀ f, strEndsWith url "/" = false → strEndsWith f "/" = true →
      strEndsWith url ".git" = false → fixSuffix url f = strDropLast f) ∧
    (∀ f, strEndsWith url "/" = true → strEndsWith f ".git" = true →
      fixSuffix url f = f) := by
  refine ⟨?_, ?_, ?_, ?_, ?_, ?_, ?_⟩
  · intro hgit
    unfold resolve
    rw [if_pos hgit]
  · intro hgit
    refine ⟨?_, ?_, ?_⟩
    · intro f hloop
      unfold resolve
      rw [if_neg (by simp [hgit]), hloop]
    · intro hloop
      unfold resolve
      rw [if_neg (by simp [hgit]), hloop]
    · intro hloop
      unfold resolve
      rw [if_neg (by simp [hgit]), hloop]
  · intro s loc hnet hs
    show (match net url with
      | NetResp.resp s loc =>
        if s = 301 then redirectLoop net fuel loc else some (Except.ok (some url))
      | NetResp.timeout => some (Except.error ())
      | NetResp.failed => some (Except.ok none)) = some (Except.ok (some url))
    rw [hnet]
    simp [hs]
  · intro loc hnet
    show (match net url with
      | NetResp.resp s loc =>
        if s = 301 then redirectLoop net fuel loc else some (Except.ok (some url))
      | NetResp.timeout => some (Except.error ())
      | NetResp.failed => some (Except.ok none)) = redirectLoop net fuel loc
    rw [hnet]
    simp
  · intro f hog hfg
    unfold fixSuffix
    simp [hog, hfg, not_slash_of_git url hog, endsWith_append_git f]
  · intro f hslash hfslash hgit
    unfold fixSuffix
    simp [hgit, hslash, hfslash]
  · intro f hslash hfgit
    unfold fixSuffix
    simp [hslash, hfgit]

theorem claim_C8_witness :
    resolve net8 2 "git@github.com:ros/ros.git"
      = some (.ok (some "git@github.com:ros/ros.git")) ∧
    resolve net8 2 "https://a/" = some (.ok (some "https://b")) ∧
    fixSuffix "https://x.git" "https://y" = "https://y.git" := by
  refine ⟨?_, ?_, ?_⟩
  · exact (claim_C8 net8 2 "git@github.com:ros/ros.git").1 (by decide)
  · have h := ((claim_C8 net8 2 "https://a/").2.1 (by decide)).1 "https://b" (by decide)
    rw [h]
    decide
  · exact (claim_C8 net8 2 "https://x.git").2.2.2.2.1 "https://y" (by decide) (by decide)

/-! ### rosdistro.resolve_source_url

The repository entry carries the optional source and doc urls (absent or
falsy modelled as none) and the release url; the release_url_map table
is a list of memo rows; the network-and-clone resolution through the
release repository's tracks.yaml (get_source_url_from_release_repo) is
an oracle.  The function returns the resolved-or-memoized url together
with the updated memo table; on the fresh-resolution path the Python
function stores the result and falls off the end, returning None. -/

structure RepoEntry where
  source_url : Option String
  doc_url : Option String
  release_url : String
deriving DecidableEq

structure MemoRow where
  release_url : String
  src_url : Option String
  distro : String
deriving DecidableEq

def resolve_source_url (fetch : String → String → Option String)
    (memo : List MemoRow) (entry : RepoEntry) (distro : String) :
    Option String × List MemoRow :=
  match entry.source_url with
  | some u => (some u, memo)
  | none =>
    match entry.doc_url with
    | some u => (some u, memo)
    | none =>
      match memo.filter
        (fun m => decide (m.release_url = entry.release_url ∧ m.distro = distro)) with
      | m :: _ => (m.src_url, memo)
      | [] =>
        let src_url := fetch entry.release_url distro
        (none, memo ++ [MemoRow.mk entry.release_url src_url distro])

/-- Claim C7: on an entry with no source or doc url whose release url is
not yet memoized, resolve_source_url stores the freshly resolved source
url in release_url_map but returns none instead of the resolved url (the
function falls off the end); only a later call is served the stored url.
The claim says the resolved url is returned, so the code diverges from
it at this input. -/
theorem claim_C7 :
    (resolve_source_url (fun _ _ => some "https://github.com/ros/ros")
        [] (RepoEntry.mk none none "https://github.com/ros-gbp/ros-release")
        "noetic").1 = none ∧
    (resolve_source_url (fun _ _ => some "https://github.com/ros/ros")
        [] (RepoEntry.mk none none "https://github.com/ros-gbp/ros-release")
        "noetic").2
      = [MemoRow.mk "https://github.com/ros-gbp/ros-release"
          (some "https://github.com/ros/ros") "noetic"] ∧
    (resolve_source_url (fun _ _ => some "https://github.com/ros/ros")
        [MemoRow.mk "https://github.com/ros-gbp/ros-release"
          (some "https://github.com/ros/ros") "noetic"]
        (RepoEntry.mk none none "https://github.com/ros-gbp/ros-release")
        "noetic").1
      = some "https://github.com/ros/ros" ∧
    (resolve_source_url (fun _ _ => some "https://github.com/ros/ros")
        [] (RepoEntry.mk (some "https://explicit.src") none
            "https://github.com/ros-gbp/ros-release") "noetic").1
      = some "https://explicit.src" := by
  refine ⟨by decide, by decide, by decide, by decide⟩

/-! ### rosdistro.classify_commit

classify_modification is a generator: for each changed file it yields a
sequence of results, each either a (verb, noun, detail) triple or the
None sentinel meaning unknown, and terminates normally, by raising a
YAML parse error (caught per file, recording one error change), or by
raising some other exception (caught per file, voiding the commit).
A file's classification outcome is therefore the list of yielded results
followed by a terminator.  classify_commit folds these outcomes exactly
as the Python loop does: all_valid starts true, the None sentinel and
foreign exceptions clear it, triples are deduplicated through the seen
set, and change_index is the length of the entries list at append
time. -/

inductive Emit where
  | unknown
  | tr (verb noun : String) (detail : Option String)
deriving DecidableEq

inductive FileTerm where
  | done
  | yamlError
  | otherError
deriving DecidableEq

structure FileClass where
  emits : List Emit
  term : FileTerm
deriving DecidableEq

structure Entry where
  commit_id : Nat
  change_index : Nat
  verb : Option String
  noun : Option String
  detail : Option String
deriving DecidableEq, Repr

abbrev Triple := String × String × Option String

abbrev CState := Bool × List Triple × List Entry

def processEmit (cid : Nat) (st : CState) (e : Emit) : CState :=
  match e with
  | .unknown => (false, st.2.1, st.2.2)
  | .tr v n d =>
    if (v, n, d) ∈ st.2.1 then st
    else (st.1, st.2.1 ++ [(v, n, d)],
          st.2.2 ++ [Entry.mk cid st.2.2.length (some v) (some n) d])

def processTerm (cid : Nat) (st : CState) : FileTerm → CState
  | .done => st
  | .yamlError =>
    (st.1, st.2.1, st.2.2 ++ [Entry.mk cid st.2.2.length none (some "error") none])
  | .otherError => (false, st.2.1, st.2.2)

def processFile (cid : Nat) (st : CState) (f : FileClass) : CState :=
  processTerm cid (f.emits.foldl (processEmit cid) st) f.term

def classifyDiffs (cid : Nat) (files : List FileClass) : CState :=
  files.foldl (processFile cid) (true, [], [])

/-- The per-diff part of classify_commit: the entries when every file
was fully classifiable, None otherwise. -/
def classify_changes (cid : Nat) (files : List FileClass) : Option (List Entry) :=
  if (classifyDiffs cid files).1 then some (classifyDiffs cid files).2.2 else none

/-- `if classifications:` — an empty list and None both suppress the
inserts into the changes table. -/
def written : Option (List Entry) → List Entry
  | some es => es
  | none => []

def isErr (e : Entry) : Bool :=
  decide (e.verb = none ∧ e.noun = some "error")

def TripleIn (es : List Entry) (t : Triple) : Prop :=
  ∃ e ∈ es, e.verb = some t.1 ∧ e.noun = some t.2.1 ∧ e.detail = t.2.2

def EmitsTriple (files : List FileClass) (t : Triple) : Prop :=
  ∃ f ∈ files, Emit.tr t.1 t.2.1 t.2.2 ∈ f.emits

theorem foldEmits_valid_false (cid : Nat) (es : List Emit) (st : CState)
    (h : st.1 = false) : (es.foldl (processEmit cid) st).1 = false := by
  induction es generalizing st with
  | nil => exact h
  | cons e rest ih =>
    rw [List.foldl_cons]
    apply ih
    cases e with
    | unknown => rfl
    | tr v n d =>
      simp only [processEmit]
      by_cases hm : (v, n, d) ∈ st.2.1
      · rw [if_pos hm]
        exact h
      · rw [if_neg hm]
        exact h

theorem processTerm_valid_false (cid : Nat) (st : CState) (tm : FileTerm)
    (h : st.1 = false) : (processTerm cid st tm).1 = false := by
  cases tm with
  | done => exact h
  | yamlError => exact h
  | otherError => rfl

theorem processFile_valid_false (cid : Nat) (st : CState) (f : FileClass)
    (h : st.1 = false) : (processFile cid st f).1 = false :=
  processTerm_valid_false cid _ f.term (foldEmits_valid_false cid f.emits st h)

theorem foldFiles_valid_false (cid : Nat) (files : List FileClass) (st : CState)
    (h : st.1 = false) : (files.foldl (processFile cid) st).1 = false := by
  induction files generalizing st with
  | nil => exact h
  | cons f rest ih =>
    rw [List.foldl_cons]
    exact ih _ (processFile_valid_false cid st f h)

theorem foldEmits_valid_unknown (cid : Nat) (es : List Emit) (st : CState)
    (h : Emit.unknown ∈ es) : (es.foldl (processEmit cid) st).1 = false := by
  induction es generalizing st with
  | nil => cases h
  | cons e rest ih =>
    rw [List.foldl_cons]
    rcases List.mem_cons.mp h with h1 | h1
    · apply foldEmits_valid_false
      rw [← h1]
      rfl
    · exact ih _ h1

theorem processFile_valid_unknown (cid : Nat) (st : CState) (f : FileClass)
    (h : Emit.unknown ∈ f.emits) : (processFile cid st f).1 = false :=
  processTerm_valid_false cid _ f.term (foldEmits_valid_unknown cid f.emits st h)

theorem foldFiles_valid_unknown (cid : Nat) (files : List FileClass)
    (f : FileClass) (hu : Emit.unknown ∈ f.emits) :
    ∀ st : CState, f ∈ files → (files.foldl (processFile cid) st).1 = false := by
  induction files with
  | nil =>
    intro st hf
    cases hf
  | cons g rest ih =>
    intro st hf
    rw [List.foldl_cons]
    rcases List.mem_cons.mp hf with h1 | h1
    · apply foldFiles_valid_false
      rw [h1] at hu
      exact processFile_valid_unknown cid st g hu
    · exact ih (processFile cid st g) h1

theorem foldEmits_valid_clean (cid : Nat) (es : List Emit) (st : CState)
    (h : Emit.unknown ∉ es) (hv : st.1 = true) :
    (es.foldl (processEmit cid) st).1 = true := by
  induction es generalizing st with
  | nil => exact hv
  | cons e rest ih =>
    rw [List.foldl_cons]
    have hrest : Emit.unknown ∉ rest := fun hh => h (List.mem_cons_of_mem e hh)
    apply ih _ hrest
    cases e with
    | unknown => exact absurd (List.mem_cons_self _ rest) h
    | tr v n d =>
      simp only [processEmit]
      by_cases hm : (v, n, d) ∈ st.2.1
      · rw [if_pos hm]
        exact hv
      · rw [if_neg hm]
        exact hv

theorem processFile_valid_clean (cid : Nat) (st : CState) (f : FileClass)
    (h : Emit.unknown ∉ f.emits) (ht : f.term ≠ FileTerm.otherError)
    (hv : st.1 = true) : (processFile cid st f).1 = true := by
  unfold processFile
  have h1 := foldEmits_valid_clean cid f.emits st h hv
  cases htm : f.term with
  | done => exact h1
  | yamlError => exact h1
  | otherError => exact absurd htm ht

theorem foldFiles_valid_clean (cid : Nat) (files : List FileClass) :
    ∀ st : CState, st.1 = true →
    (∀ f ∈ files, Emit.unknown ∉ f.emits ∧ f.term ≠ FileTerm.otherError) →
    (files.foldl (processFile cid) st).1 = true := by
  induction files with
  | nil =>
    intro st h _
    exact h
  | cons g rest ih =>
    intro st h hcl
    rw [List.foldl_cons]
    exact ih _
      (processFile_valid_clean cid st g
        (hcl g (List.mem_cons_self g rest)).1
        (hcl g (List.mem_cons_self g rest)).2 h)
      (fun f hf => hcl f (List.mem_cons_of_mem g hf))

theorem errCount_foldEmits (cid : Nat) (es : List Emit) (st : CState) :
    ((es.foldl (processEmit cid) st).2.2).countP isErr
      = st.2.2.countP isErr := by
  induction es generalizing st with
  | nil => rfl
  | cons e rest ih =>
    rw [List.foldl_cons, ih]
    cases e with
    | unknown => rfl
    | tr v n d =>
      simp only [processEmit]
      by_cases hm : (v, n, d) ∈ st.2.1
      · rw [if_pos hm]
      · rw [if_neg hm]
        simp [List.countP_append, List.countP_cons, isErr]

theorem errCount_processFile (cid : Nat) (st : CState) (f : FileClass) :
    ((processFile cid st f).2.2).countP isErr
      = st.2.2.countP isErr
        + (if f.term = FileTerm.yamlError then 1 else 0) := by
  unfold processFile
  cases htm : f.term with
  | done =>
    simp only [processTerm]
    rw [errCount_foldEmits]
    simp
  | yamlError =>
    simp only [processTerm]
    rw [List.countP_append, errCount_foldEmits]
    simp [List.countP_cons, isErr]
  | otherError =>
    simp only [processTerm]
    rw [errCount_foldEmits]
    simp

theorem errCount_foldFiles (cid : Nat) (files : List FileClass) (st : CState) :
    ((files.foldl (processFile cid) st).2.2).countP isErr
      = st.2.2.countP isErr
        + files.countP (fun f => decide (f.term = FileTerm.yamlError)) := by
  induction files generalizing st with
  | nil => simp
  | cons f rest ih =>
    rw [List.foldl_cons, ih, errCount_processFile, List.countP_cons]
    by_cases hy : f.term = FileTerm.yamlError
    · simp [hy]
      omega
    · simp [hy]

theorem seen_foldEmits (cid : Nat) (es : List Emit) (st : CState) (t : Triple) :
    t ∈ (es.foldl (processEmit cid) st).2.1 ↔
      t ∈ st.2.1 ∨ Emit.tr t.1 t.2.1 t.2.2 ∈ es := by
  obtain ⟨t1, t2, t3⟩ := t
  induction es generalizing st with
  | nil => simp
  | cons e rest ih =>
    rw [List.foldl_cons, ih]
    cases e with
    | unknown =>
      simp only [processEmit, List.mem_cons]
      constructor
      · rintro (h | h)
        · exact Or.inl h
        · exact Or.inr (Or.inr h)
      · rintro (h | h | h)
        · exact Or.inl h
        · cases h
        · exact Or.inr h
    | tr v n d =>
      simp only [processEmit, List.mem_cons]
      by_cases hm : (v, n, d) ∈ st.2.1
      · rw [if_pos hm]
        constructor
        · rintro (h | h)
          · exact Or.inl h
          · exact Or.inr (Or.inr h)
        · rintro (h | h | h)
          · exact Or.inl h
          · injection h with hv hn hd
            rw [hv, hn, hd]
            exact Or.inl hm
          · exact Or.inr h
      · rw [if_neg hm]
        constructor
        · rintro (h | h)
          · rcases List.mem_append.mp h with h1 | h1
            · exact Or.inl h1
            · rcases List.mem_cons.mp h1 with h2 | h2
              · rcases Prod.mk.injEq .. ▸ h2 with ⟨ha, hbc⟩
                rcases Prod.mk.injEq .. ▸ hbc with ⟨hb, hc⟩
                rw [ha, hb, hc]
                exact Or.inr (Or.inl rfl)
              · cases h2
          · exact Or.inr (Or.inr h)
        · rintro (h | h | h)
          · exact Or.inl (List.mem_append_left _ h)
          · injection h with hv hn hd
            rw [hv, hn, hd]
            exact Or.inl (List.mem_append_right _ (List.mem_cons_self _ []))
          · exact Or.inr h

theorem seen_processTerm (cid : Nat) (st : CState) (tm : FileTerm) :
    (processTerm cid st tm).2.1 = st.2.1 := by
  cases tm <;> rfl

theorem seen_processFile (cid : Nat) (st : CState) (f : FileClass) (t : Triple) :
    t ∈ (processFile cid st f).2.1 ↔
      t ∈ st.2.1 ∨ Emit.tr t.1 t.2.1 t.2.2 ∈ f.emits := by
  unfold processFile
  rw [seen_processTerm]
  exact seen_foldEmits cid f.emits st t

theorem seen_foldFiles (cid : Nat) (files : List FileClass) (st : CState) (t : Triple) :
    t ∈ (files.foldl (processFile cid) st).2.1 ↔
      t ∈ st.2.1 ∨ EmitsTriple files t := by
  induction files generalizing st with
  | nil => simp [EmitsTriple]
  | cons f rest ih =>
    rw [List.foldl_cons, ih, seen_processFile]
    unfold EmitsTriple
    constructor
    · rintro ((h | h) | ⟨g, hg, hgm⟩)
      · exact Or.inl h
      · exact Or.inr ⟨f, List.mem_cons_self f rest, h⟩
      · exact Or.inr ⟨g, List.mem_cons_of_mem f hg, hgm⟩
    · rintro (h | ⟨g, hg, hgm⟩)
      · exact Or.inl (Or.inl h)
      · rcases List.mem_cons.mp hg with h1 | h1
        · rw [h1] at hgm
          exact Or.inl (Or.inr hgm)
        · exact Or.inr ⟨g, h1, hgm⟩

def SeenInv (st : CState) : Prop :=
  ∀ t : Triple, t ∈ st.2.1 ↔ TripleIn st.2.2 t

theorem tripleIn_append (es es2 : List Entry) (t : Triple) :
    TripleIn (es ++ es2) t ↔ TripleIn es t ∨ TripleIn es2 t := by
  unfold TripleIn
  constructor
  · rintro ⟨e, he, hp⟩
    rcases List.mem_append.mp he with h | h
    · exact Or.inl ⟨e, h, hp⟩
    · exact Or.inr ⟨e, h, hp⟩
  · rintro (⟨e, he, hp⟩ | ⟨e, he, hp⟩)
    · exact ⟨e, List.mem_append_left _ he, hp⟩
    · exact ⟨e, List.mem_append_right _ he, hp⟩

theorem processEmit_inv (cid : Nat) (st : CState) (e : Emit)
    (h : SeenInv st) : SeenInv (processEmit cid st e) := by
  cases e with
  | unknown => exact h
  | tr v n d =>
    simp only [processEmit]
    by_cases hm : (v, n, d) ∈ st.2.1
    · rw [if_pos hm]
      exact h
    · rw [if_neg hm]
      rintro ⟨t1, t2, t3⟩
      rw [tripleIn_append]
      constructor
      · intro h1
        rcases List.mem_append.mp h1 with h2 | h2
        · exact Or.inl ((h (t1, t2, t3)).mp h2)
        · rcases List.mem_cons.mp h2 with h3 | h3
          · rcases Prod.mk.injEq .. ▸ h3 with ⟨ha, hbc⟩
            rcases Prod.mk.injEq .. ▸ hbc with ⟨hb, hc⟩
            refine Or.inr ⟨Entry.mk cid st.2.2.length (some v) (some n) d,
              List.mem_cons_self _ [], ?_⟩
            rw [ha, hb, hc]
            exact ⟨rfl, rfl, rfl⟩
          · cases h3
      · rintro (h1 | ⟨e, he, hp⟩)
        · exact List.mem_append_left _ ((h (t1, t2, t3)).mpr h1)
        · rcases List.mem_cons.mp he with h2 | h2
          · rcases hp with ⟨hv, hn, hd⟩
            rw [h2] at hv hn hd
            simp only [Option.some.injEq] at hv hn
            apply List.mem_append_right
            rw [← hv, ← hn]
            simp only at hd
            rw [← hd]
            exact List.mem_cons_self _ []
          · cases h2

theorem processTerm_inv (cid : Nat) (st : CState) (tm : FileTerm)
    (h : SeenInv st) : SeenInv (processTerm cid st tm) := by
  cases tm with
  | done => exact h
  | yamlError =>
    intro t
    simp only [processTerm]
    rw [tripleIn_append]
    constructor
    · intro h1
      exact Or.inl ((h t).mp h1)
    · rintro (h1 | ⟨e, he, hp⟩)
      · exact (h t).mpr h1
      · rcases List.mem_cons.mp he with h2 | h2
        · rcases hp with ⟨hv, _, _⟩
          rw [h2] at hv
          cases hv
        · cases h2
  | otherError => exact h

theorem foldEmits_inv (cid : Nat) (es : List Emit) (st : CState)
    (h : SeenInv st) : SeenInv (es.foldl (processEmit cid) st) := by
  induction es generalizing st with
  | nil => exact h
  | cons e rest ih =>
    rw [List.foldl_cons]
    exact ih _ (processEmit_inv cid st e h)

theorem processFile_inv (cid : Nat) (st : CState) (f : FileClass)
    (h : SeenInv st) : SeenInv (processFile cid st f) :=
  processTerm_inv cid _ f.term (foldEmits_inv cid f.emits st h)

theorem foldFiles_inv (cid : Nat) (files : List FileClass) (st : CState)
    (h : SeenInv st) : SeenInv (files.foldl (processFile cid) st) := by
  induction files generalizing st with
  | nil => exact h
  | cons f rest ih =>
    rw [List.foldl_cons]
    exact ih _ (processFile_inv cid st f h)

/-- Claim C1: in single-parent diff classification, any file yielding
the unknown sentinel voids the whole commit (classification returns
None and zero change rows are written), whereas a YAML parse error in a
file only adds one error change for that file: when no file is unknown
and no foreign exception occurs, the commit's change list is returned
with exactly one error entry per YAML-failing file and with a change
entry for precisely the triples emitted by the files. -/
theorem claim_C1 (cid : Nat) (files : List FileClass) :
    ((∃ f ∈ files, Emit.unknown ∈ f.emits) →
      classify_changes cid files = none ∧
      written (classify_changes cid files) = []) ∧
    ((∀ f ∈ files, Emit.unknown ∉ f.emits ∧ f.term ≠ FileTerm.otherError) →
      classify_changes cid files = some (classifyDiffs cid files).2.2 ∧
      ((classifyDiffs cid files).2.2.countP isErr
        = files.countP (fun f => decide (f.term = FileTerm.yamlError))) ∧
      (∀ t : Triple,
        TripleIn (classifyDiffs cid files).2.2 t ↔ EmitsTriple files t)) := by
  constructor
  · rintro ⟨f, hf, hu⟩
    have hfalse : (classifyDiffs cid files).1 = false :=
      foldFiles_valid_unknown cid files f hu (true, [], []) hf
    constructor
    · simp [classify_changes, hfalse]
    · simp [classify_changes, hfalse, written]
  · intro hclean
    have hvalid : (classifyDiffs cid files).1 = true :=
      foldFiles_valid_clean cid files (true, [], []) rfl hclean
    refine ⟨?_, ?_, ?_⟩
    · simp [classify_changes, hvalid]
    · have h := errCount_foldFiles cid files (true, [], [])
      unfold classifyDiffs
      rw [h]
      simp
    · intro t
      have hinv : SeenInv (classifyDiffs cid files) := by
        apply foldFiles_inv
        intro t2
        constructor
        · intro h
          cases h
        · rintro ⟨e, he, _⟩
          cases he
      have hseen := seen_foldFiles cid files (true, [], []) t
      rw [← hinv t]
      unfold classifyDiffs at hseen ⊢
      rw [hseen]
      constructor
      · rintro (h | h)
        · cases h
        · exact h
      · intro h
        exact Or.inr h

theorem claim_C1_witness :
    classify_changes 4
        [FileClass.mk [Emit.tr "add" "package" (some "noetic")] FileTerm.done,
         FileClass.mk [Emit.unknown] FileTerm.done]
      = none ∧
    classify_changes 4
        [FileClass.mk [Emit.tr "add" "package" (some "noetic")] FileTerm.done,
         FileClass.mk [] FileTerm.yamlError,
         FileClass.mk [Emit.tr "add" "package" (some "noetic")] FileTerm.done]
      = some
        [Entry.mk 4 0 (some "add") (some "package") (some "noetic"),
         Entry.mk 4 1 none (some "error") none] ∧
    ([Entry.mk 4 0 (some "add") (some "package") (some "noetic"),
      Entry.mk 4 1 none (some "error") none].countP isErr = 1) := by
  refine ⟨?_, ?_, by decide⟩
  · exact ((claim_C1 4
      [FileClass.mk [Emit.tr "add" "package" (some "noetic")] FileTerm.done,
       FileClass.mk [Emit.unknown] FileTerm.done]).1
      ⟨FileClass.mk [Emit.unknown] FileTerm.done, by decide, by decide⟩).1
  · have h := ((claim_C1 4
      [FileClass.mk [Emit.tr "add" "package" (some "noetic")] FileTerm.done,
       FileClass.mk [] FileTerm.yamlError,
       FileClass.mk [Emit.tr "add" "package" (some "noetic")] FileTerm.done]).2
      (by decide)).1
    rw [h]
    rfl


/-! ### classify_commit over the commit graph

A git commit carries its hash, author name, author email, authored date
and parent commits.  The content diff of an effective commit against its
first parent, fed through classify_modification, is an oracle from the
effective commit's hash to the list of per-file classification
outcomes.  The multi-parent branch of the Python function is decomposed
into two helpers matching its two nested decisions: the shape of the
unseen-parents list and the shape of the single unseen parent's own
parents. -/

inductive GCommit where
  | mk (hexsha author email : String) (authored_date : Nat)
       (parents : List GCommit)

def GCommit.hexsha : GCommit → String
  | .mk h _ _ _ _ => h

def GCommit.author : GCommit → String
  | .mk _ a _ _ _ => a

def GCommit.email : GCommit → String
  | .mk _ _ e _ _ => e

def GCommit.authored_date : GCommit → Nat
  | .mk _ _ _ d _ => d

def GCommit.parents : GCommit → List GCommit
  | .mk _ _ _ _ ps => ps

structure CommitDict where
  hash : String
  date : Nat
  id : Nat
  author : String
  email : String
deriving DecidableEq, Repr

def commit_dict (commit : GCommit) (commit_id : Nat) : CommitDict :=
  CommitDict.mk commit.hexsha commit.authored_date commit_id
    commit.author commit.email

/-- The weird-merge decision: the single unseen parent is substituted
when it has exactly one parent whose hash is on the main path. -/
def classify_weird (diffs : String → List FileClass) (main_path : List String)
    (base : CommitDict) (commit_id : Nat) (parent : GCommit) :
    CommitDict × Option (List Entry) :=
  match parent.parents with
  | [gp] =>
    if gp.hexsha ∈ main_path then
      ({ base with author := parent.author, email := parent.email },
       classify_changes commit_id (diffs parent.hexsha))
    else (base, none)
  | _ => (base, none)

/-- Dispatch on the list of parents not yet in main_path. -/
def classify_merge_case (diffs : String → List FileClass)
    (main_path : List String) (base : CommitDict) (commit_id : Nat) :
    List GCommit → CommitDict × Option (List Entry)
  | [] => (base, some [Entry.mk commit_id 0 (some "merge") none none])
  | [parent] => classify_weird diffs main_path base commit_id parent
  | _ => (base, none)

def classify_commit (diffs : String → List FileClass) (main_path : List String)
    (commit : GCommit) (commit_id : Nat) : CommitDict × Option (List Entry) :=
  let base := commit_dict commit commit_id
  if commit.parents.length = 0 then (base, none)
  else if 1 < commit.parents.length then
    classify_merge_case diffs main_path base commit_id
      (commit.parents.filter (fun p => decide (p.hexsha ∉ main_path)))
  else (base, classify_changes commit_id (diffs commit.hexsha))

theorem classify_commit_multi (diffs : String → List FileClass)
    (main_path : List String) (commit : GCommit) (commit_id : Nat)
    (hmulti : 1 < commit.parents.length) :
    classify_commit diffs main_path commit commit_id
      = classify_merge_case diffs main_path (commit_dict commit commit_id)
          commit_id
          (commit.parents.filter (fun p => decide (p.hexsha ∉ main_path))) := by
  unfold classify_commit
  rw [if_neg (by omega), if_pos hmulti]

theorem classify_weird_single (diffs : String → List FileClass)
    (main_path : List String) (base : CommitDict) (commit_id : Nat)
    (parent gp : GCommit) (hpp : parent.parents = [gp]) :
    classify_weird diffs main_path base commit_id parent
      = if gp.hexsha ∈ main_path then
          ({ base with author := parent.author, email := parent.email },
           classify_changes commit_id (diffs parent.hexsha))
        else (base, none) := by
  unfold classify_weird
  rw [hpp]

theorem classify_weird_other (diffs : String → List FileClass)
    (main_path : List String) (base : CommitDict) (commit_id : Nat)
    (parent : GCommit) (hshape : ∀ gp, parent.parents ≠ [gp]) :
    classify_weird diffs main_path base commit_id parent = (base, none) := by
  unfold classify_weird
  cases hpp : parent.parents with
  | nil => rfl
  | cons g rest =>
    cases rest with
    | nil => exact absurd hpp (hshape g)
    | cons g2 rest2 => rfl

/-- Claim C2: for a multi-parent commit, if every parent hash is in
main_path the result is the commit metadata with the single synthetic
merge change at change_index 0 and is independent of the content diff;
if exactly one parent is unseen and that parent has exactly one parent
whose hash is in main_path, the unseen parent is substituted: the
returned row keeps the merge commit's hash and date but takes the
substitute's author and email, and diff classification proceeds on the
substitute; every other multi-parent shape yields the metadata with no
change list. -/
theorem claim_C2 (diffs diffs2 : String → List FileClass)
    (main_path : List String) (commit : GCommit) (commit_id : Nat)
    (hmulti : 1 < commit.parents.length) :
    ((∀ p ∈ commit.parents, p.hexsha ∈ main_path) →
      classify_commit diffs main_path commit commit_id
        = (commit_dict commit commit_id,
           some [Entry.mk commit_id 0 (some "merge") none none]) ∧
      classify_commit diffs main_path commit commit_id
        = classify_commit diffs2 main_path commit commit_id) ∧
    (∀ parent gp,
      commit.parents.filter (fun p => decide (p.hexsha ∉ main_path)) = [parent] →
      parent.parents = [gp] → gp.hexsha ∈ main_path →
      classify_commit diffs main_path commit commit_id
        = (CommitDict.mk commit.hexsha commit.authored_date commit_id
             parent.author parent.email,
           classify_changes commit_id (diffs parent.hexsha))) ∧
    (∀ parent,
      commit.parents.filter (fun p => decide (p.hexsha ∉ main_path)) = [parent] →
      ((∀ gp, parent.parents ≠ [gp]) ∨
        (∃ gp, parent.parents = [gp] ∧ gp.hexsha ∉ main_path)) →
      classify_commit diffs main_path commit commit_id
        = (commit_dict commit commit_id, none)) ∧
    (2 ≤ (commit.parents.filter (fun p => decide (p.hexsha ∉ main_path))).length →
      classify_commit diffs main_path commit commit_id
        = (commit_dict commit commit_id, none)) := by
  refine ⟨?_, ?_, ?_, ?_⟩
  · intro hall
    have hfilter : commit.parents.filter (fun p => decide (p.hexsha ∉ main_path))
        = [] := by
      apply List.filter_eq_nil_iff.mpr
      intro p hp
      simp [hall p hp]
    rw [classify_commit_multi diffs main_path commit commit_id hmulti, hfilter,
        classify_commit_multi diffs2 main_path commit commit_id hmulti, hfilter]
    exact ⟨rfl, rfl⟩
  · intro parent gp hfilter hpp hgp
    rw [classify_commit_multi diffs main_path commit commit_id hmulti, hfilter]
    show classify_weird diffs main_path (commit_dict commit commit_id)
        commit_id parent = _
    rw [classify_weird_single diffs main_path _ commit_id parent gp hpp,
        if_pos hgp]
    rfl
  · intro parent hfilter hshape
    rw [classify_commit_multi diffs main_path commit commit_id hmulti, hfilter]
    show classify_weird diffs main_path (commit_dict commit commit_id)
        commit_id parent = _
    rcases hshape with hnone | ⟨gp, hpp, hgp⟩
    · exact classify_weird_other diffs main_path _ commit_id parent hnone
    · rw [classify_weird_single diffs main_path _ commit_id parent gp hpp,
          if_neg hgp]
  · intro hlen
    rw [classify_commit_multi diffs main_path commit commit_id hmulti]
    cases hfilter : commit.parents.filter (fun p => decide (p.hexsha ∉ main_path)) with
    | nil =>
      rw [hfilter] at hlen
      cases hlen
    | cons p rest =>
      cases rest with
      | nil =>
        rw [hfilter] at hlen
        simp at hlen
      | cons q rest2 => rfl

theorem claim_C2_witness :
    classify_commit (fun _ => []) ["x", "q", "m"]
        (GCommit.mk "m" "ma" "me" 3
          [GCommit.mk "x" "xa" "xe" 0 [],
           GCommit.mk "p" "pa" "pe" 2 [GCommit.mk "q" "qa" "qe" 1 []]]) 5
      = (CommitDict.mk "m" 3 5 "pa" "pe",
         classify_changes 5 ((fun _ => ([] : List FileClass)) "p")) ∧
    classify_commit (fun _ => []) ["x", "p", "m"]
        (GCommit.mk "m" "ma" "me" 3
          [GCommit.mk "x" "xa" "xe" 0 [],
           GCommit.mk "p" "pa" "pe" 2 [GCommit.mk "q" "qa" "qe" 1 []]]) 5
      = (commit_dict (GCommit.mk "m" "ma" "me" 3
          [GCommit.mk "x" "xa" "xe" 0 [],
           GCommit.mk "p" "pa" "pe" 2 [GCommit.mk "q" "qa" "qe" 1 []]]) 5,
         some [Entry.mk 5 0 (some "merge") none none]) := by
  constructor
  · exact (claim_C2 (fun _ => []) (fun _ => []) ["x", "q", "m"]
      (GCommit.mk "m" "ma" "me" 3
        [GCommit.mk "x" "xa" "xe" 0 [],
         GCommit.mk "p" "pa" "pe" 2 [GCommit.mk "q" "qa" "qe" 1 []]]) 5
      (by decide)).2.1
      (GCommit.mk "p" "pa" "pe" 2 [GCommit.mk "q" "qa" "qe" 1 []])
      (GCommit.mk "q" "qa" "qe" 1 []) rfl rfl (by decide)
  · exact ((claim_C2 (fun _ => []) (fun _ => []) ["x", "p", "m"]
      (GCommit.mk "m" "ma" "me" 3
        [GCommit.mk "x" "xa" "xe" 0 [],
         GCommit.mk "p" "pa" "pe" 2 [GCommit.mk "q" "qa" "qe" 1 []]]) 5
      (by decide)).1
      (by
        intro p hp
        rcases List.mem_cons.mp hp with h1 | h1
        · rw [h1]
          decide
        · rcases List.mem_cons.mp h1 with h2 | h2
          · rw [h2]
            decide
          · cases h2)).1


/-! ### update_rosdistro: the classification walk and its op trace

The walk enumerates commit outcomes in order; for each commit id not yet
possessing a change row it upserts the commit metadata and inserts the
classification's change records (none at all for a None or empty
classification).  The store holds the commits and changes tables; the
single transaction commit happens in MetricDB.close, so the persisted
store after a cancellation is the prefix of database operations executed
before the interrupt.  Checkpoint concerns (repo_count, tags) touch
neither table and are not modelled here. -/

inductive DbOp where
  | upCommit (d : CommitDict)
  | insChange (e : Entry)
deriving DecidableEq

structure Store where
  commits : List CommitDict
  changes : List Entry
deriving DecidableEq, Repr

def upsertCommit (l : List CommitDict) (d : CommitDict) : List CommitDict :=
  if l.any (fun x => decide (x.id = d.id)) then
    l.map (fun x => if x.id = d.id then d else x)
  else l ++ [d]

def applyOp (st : Store) : DbOp → Store
  | .upCommit d => Store.mk (upsertCommit st.commits d) st.changes
  | .insChange e => Store.mk st.commits (st.changes ++ [e])

def applyOps (st : Store) (ops : List DbOp) : Store :=
  ops.foldl applyOp st

def commitOps (already : List Nat) (idx : Nat)
    (outcome : CommitDict × Option (List Entry)) : List DbOp :=
  if idx ∈ already then []
  else DbOp.upCommit outcome.1 :: (written outcome.2).map DbOp.insChange

def walkOpsFrom (already : List Nat) :
    Nat → List (CommitDict × Option (List Entry)) → List DbOp
  | _, [] => []
  | idx, oc :: rest =>
    commitOps already idx oc ++ walkOpsFrom already (idx + 1) rest

def walkOps (already : List Nat)
    (outcomes : List (CommitDict × Option (List Entry))) : List DbOp :=
  walkOpsFrom already 0 outcomes

def idsWithChanges (st : Store) : List Nat :=
  (st.changes.map (fun e => e.commit_id)).dedup

/-- One full walk restricted to the classification concern: the already
classified set is read from the changes table at walk start. -/
def update_rosdistro (st0 : Store)
    (outcomes : List (CommitDict × Option (List Entry))) : Store :=
  applyOps st0 (walkOps (idsWithChanges st0) outcomes)

def changesFor (st : Store) (cid : Nat) : List Entry :=
  st.changes.filter (fun e => decide (e.commit_id = cid))

def insertedChanges : List DbOp → List Entry
  | [] => []
  | .insChange e :: rest => e :: insertedChanges rest
  | .upCommit _ :: rest => insertedChanges rest

def writtenList (already : List Nat) :
    Nat → List (CommitDict × Option (List Entry)) → List Entry
  | _, [] => []
  | idx, oc :: rest =>
    (if idx ∈ already then [] else written oc.2)
      ++ writtenList already (idx + 1) rest

/-- Every change entry an outcome list would write carries the commit id
it is enumerated under (classify_commit stamps commit_id on every
entry it returns). -/
def goodIds : Nat → List (CommitDict × Option (List Entry)) → Prop
  | _, [] => True
  | idx, oc :: rest =>
    (∀ e ∈ written oc.2, e.commit_id = idx) ∧ goodIds (idx + 1) rest

theorem applyOps_changes (ops : List DbOp) (st : Store) :
    (applyOps st ops).changes = st.changes ++ insertedChanges ops := by
  induction ops generalizing st with
  | nil => simp [applyOps, insertedChanges]
  | cons op rest ih =>
    cases op with
    | upCommit d =>
      show (applyOps (applyOp st (DbOp.upCommit d)) rest).changes = _
      rw [ih]
      rfl
    | insChange e =>
      show (applyOps (applyOp st (DbOp.insChange e)) rest).changes = _
      rw [ih]
      simp [applyOp, insertedChanges]

theorem insertedChanges_append (l1 l2 : List DbOp) :
    insertedChanges (l1 ++ l2) = insertedChanges l1 ++ insertedChanges l2 := by
  induction l1 with
  | nil => rfl
  | cons op rest ih =>
    cases op with
    | upCommit d => simpa [insertedChanges] using ih
    | insChange e => simp [insertedChanges, ih]

theorem insertedChanges_map (es : List Entry) :
    insertedChanges (es.map DbOp.insChange) = es := by
  induction es with
  | nil => rfl
  | cons e rest ih => simp [insertedChanges, ih]

theorem insertedChanges_walk (already : List Nat) (idx : Nat)
    (outcomes : List (CommitDict × Option (List Entry))) :
    insertedChanges (walkOpsFrom already idx outcomes)
      = writtenList already idx outcomes := by
  induction outcomes generalizing idx with
  | nil => rfl
  | cons oc rest ih =>
    show insertedChanges (commitOps already idx oc ++ walkOpsFrom already (idx + 1) rest)
        = (if idx ∈ already then [] else written oc.2)
          ++ writtenList already (idx + 1) rest
    rw [insertedChanges_append, ih]
    congr 1
    unfold commitOps
    by_cases hm : idx ∈ already
    · rw [if_pos hm, if_pos hm]
      rfl
    · rw [if_neg hm, if_neg hm]
      simp [insertedChanges, insertedChanges_map]

theorem writtenList_ids (already : List Nat) (idx : Nat)
    (outcomes : List (CommitDict × Option (List Entry)))
    (hgood : goodIds idx outcomes) :
    ∀ e ∈ writtenList already idx outcomes, idx ≤ e.commit_id := by
  induction outcomes generalizing idx with
  | nil =>
    intro e he
    cases he
  | cons oc rest ih =>
    intro e he
    unfold writtenList at he
    rcases List.mem_append.mp he with h1 | h1
    · by_cases hm : idx ∈ already
      · rw [if_pos hm] at h1
        cases h1
      · rw [if_neg hm] at h1
        rw [hgood.1 e h1]
    · have := ih (idx + 1) hgood.2 e h1
      omega

theorem goodIds_take (idx : Nat) (outcomes : List (CommitDict × Option (List Entry)))
    (j : Nat) (hgood : goodIds idx outcomes) : goodIds idx (outcomes.take j) := by
  induction outcomes generalizing idx j with
  | nil => simp [goodIds]
  | cons oc rest ih =>
    cases j with
    | zero => trivial
    | succ j2 => exact ⟨hgood.1, ih (idx + 1) j2 hgood.2⟩

theorem writtenList_filter_block (already : List Nat) (idx : Nat)
    (outcomes : List (CommitDict × Option (List Entry))) (cid : Nat)
    (hgood : goodIds idx outcomes) (hlt : cid < idx) :
    (writtenList already idx outcomes).filter
        (fun e => decide (e.commit_id = cid)) = [] := by
  apply List.filter_eq_nil_iff.mpr
  intro e he
  have := writtenList_ids already idx outcomes hgood e he
  simp only [decide_eq_true_eq]
  omega

theorem writtenList_filter_take (already : List Nat) (idx : Nat)
    (outcomes : List (CommitDict × Option (List Entry))) (j cid : Nat)
    (hgood : goodIds idx outcomes) :
    ((writtenList already idx (outcomes.take j)).filter
        (fun e => decide (e.commit_id = cid))
      = (writtenList already idx outcomes).filter
          (fun e => decide (e.commit_id = cid))) ∨
    ((writtenList already idx (outcomes.take j)).filter
        (fun e => decide (e.commit_id = cid)) = []) := by
  induction outcomes generalizing idx j with
  | nil => simp [writtenList]
  | cons oc rest ih =>
    cases j with
    | zero =>
      right
      rfl
    | succ j2 =>
      by_cases hc : cid = idx
      · left
        show ((if idx ∈ already then [] else written oc.2)
            ++ writtenList already (idx + 1) (rest.take j2)).filter
            (fun e => decide (e.commit_id = cid)) = _
        rw [List.filter_append]
        have h1 : (writtenList already (idx + 1) (rest.take j2)).filter
            (fun e => decide (e.commit_id = cid)) = [] := by
          apply writtenList_filter_block already (idx + 1) _ cid
            (goodIds_take (idx + 1) rest j2 hgood.2)
          omega
        have h2 : (writtenList already (idx + 1) rest).filter
            (fun e => decide (e.commit_id = cid)) = [] := by
          apply writtenList_filter_block already (idx + 1) rest cid hgood.2
          omega
        rw [h1]
        show _ = ((if idx ∈ already then [] else written oc.2)
            ++ writtenList already (idx + 1) rest).filter
            (fun e => decide (e.commit_id = cid))
        rw [List.filter_append, h2]
      · show ((if idx ∈ already then [] else written oc.2)
            ++ writtenList already (idx + 1) (rest.take j2)).filter
            (fun e => decide (e.commit_id = cid)) = _ ∨ _
        have hblk : ((if idx ∈ already then [] else written oc.2) : List Entry).filter
            (fun e => decide (e.commit_id = cid)) = [] := by
          by_cases hm : idx ∈ already
          · rw [if_pos hm]
            rfl
          · rw [if_neg hm]
            apply List.filter_eq_nil_iff.mpr
            intro e he
            rw [hgood.1 e he]
            simp only [decide_eq_true_eq]
            omega
        rcases ih (idx + 1) j2 hgood.2 with h | h
        · left
          rw [List.filter_append, hblk, h]
          show _ = ((if idx ∈ already then [] else written oc.2)
              ++ writtenList already (idx + 1) rest).filter
              (fun e => decide (e.commit_id = cid))
          rw [List.filter_append, hblk]
        · right
          show ((if idx ∈ already then [] else written oc.2)
              ++ writtenList already (idx + 1) (rest.take j2)).filter
              (fun e => decide (e.commit_id = cid)) = []
          rw [List.filter_append, hblk, h]
          rfl

theorem writtenList_filter_take_lt (already : List Nat) (idx : Nat)
    (outcomes : List (CommitDict × Option (List Entry))) (j cid : Nat)
    (hgood : goodIds idx outcomes) (hlt : cid < idx + j) :
    (writtenList already idx (outcomes.take j)).filter
        (fun e => decide (e.commit_id = cid))
      = (writtenList already idx outcomes).filter
          (fun e => decide (e.commit_id = cid)) := by
  induction outcomes generalizing idx j with
  | nil => simp [writtenList]
  | cons oc rest ih =>
    by_cases hc : cid < idx
    · rw [writtenList_filter_block already idx _ cid
        (goodIds_take idx (oc :: rest) j hgood) hc]
      rw [writtenList_filter_block already idx (oc :: rest) cid hgood hc]
    · cases j with
      | zero => omega
      | succ j2 =>
        show ((if idx ∈ already then [] else written oc.2)
            ++ writtenList already (idx + 1) (rest.take j2)).filter
            (fun e => decide (e.commit_id = cid))
          = ((if idx ∈ already then [] else written oc.2)
            ++ writtenList already (idx + 1) rest).filter
            (fun e => decide (e.commit_id = cid))
        rw [List.filter_append, List.filter_append]
        by_cases hc2 : cid = idx
        · have h1 : (writtenList already (idx + 1) (rest.take j2)).filter
              (fun e => decide (e.commit_id = cid)) = [] := by
            apply writtenList_filter_block already (idx + 1) _ cid
              (goodIds_take (idx + 1) rest j2 hgood.2)
            omega
          have h2 : (writtenList already (idx + 1) rest).filter
              (fun e => decide (e.commit_id = cid)) = [] := by
            apply writtenList_filter_block already (idx + 1) rest cid hgood.2
            omega
          rw [h1, h2]
        · rw [ih (idx + 1) j2 hgood.2 (by omega)]

theorem walkOpsFrom_append (already : List Nat) (idx : Nat)
    (l1 l2 : List (CommitDict × Option (List Entry))) :
    walkOpsFrom already idx (l1 ++ l2)
      = walkOpsFrom already idx l1 ++ walkOpsFrom already (idx + l1.length) l2 := by
  induction l1 generalizing idx with
  | nil => simp [walkOpsFrom]
  | cons oc rest ih =>
    show commitOps already idx oc ++ walkOpsFrom already (idx + 1) (rest ++ l2)
        = (commitOps already idx oc ++ walkOpsFrom already (idx + 1) rest)
          ++ walkOpsFrom already (idx + (oc :: rest).length) l2
    rw [ih (idx + 1), List.append_assoc]
    have harith : idx + 1 + rest.length = idx + (oc :: rest).length := by
      rw [List.length_cons]
      omega
    rw [harith]

theorem changesFor_applyOps (st : Store) (ops : List DbOp) (cid : Nat) :
    changesFor (applyOps st ops) cid
      = changesFor st cid
        ++ (insertedChanges ops).filter (fun e => decide (e.commit_id = cid)) := by
  unfold changesFor
  rw [applyOps_changes, List.filter_append]

/-- Claim C9 counterexample: cancelling after two of the three database
operations of a two-change commit and closing leaves exactly one of its
two change rows persisted: neither none nor all of them. -/
theorem claim_C9_cex :
    changesFor
        (applyOps (Store.mk [] [])
          ((walkOps []
            [(CommitDict.mk "h0" 0 0 "a" "e",
              some [Entry.mk 0 0 (some "add") (some "package") (some "noetic"),
                    Entry.mk 0 1 (some "bump") (some "patch") (some "noetic")])]).take 2))
        0
      = [Entry.mk 0 0 (some "add") (some "package") (some "noetic")] ∧
    written (some [Entry.mk 0 0 (some "add") (some "package") (some "noetic"),
                   Entry.mk 0 1 (some "bump") (some "patch") (some "noetic")])
      = [Entry.mk 0 0 (some "add") (some "package") (some "noetic"),
         Entry.mk 0 1 (some "bump") (some "patch") (some "noetic")] ∧
    ¬ ([Entry.mk 0 0 (some "add") (some "package") (some "noetic")] = [] ∨
       [Entry.mk 0 0 (some "add") (some "package") (some "noetic")]
         = [Entry.mk 0 0 (some "add") (some "package") (some "noetic"),
            Entry.mk 0 1 (some "bump") (some "patch") (some "noetic")]) := by
  refine ⟨by decide, by decide, by decide⟩

/-- Claim C9 (amended): the walk's op trace is the concatenation of
per-commit blocks, so a cancellation at a commit boundary (after the
first j commits) persists, for every commit id, either everything a full
walk would have written for it or nothing new, and every commit
processed before the boundary keeps exactly its full change set; a
cancellation between the change inserts of one commit can persist a
partial set, since the only transaction commit happens at close. -/
theorem claim_C9 (st0 : Store) (already : List Nat)
    (outcomes : List (CommitDict × Option (List Entry))) (j cid : Nat)
    (hgood : goodIds 0 outcomes) :
    (walkOps already outcomes
      = walkOps already (outcomes.take j)
        ++ walkOpsFrom already (outcomes.take j).length (outcomes.drop j)) ∧
    (changesFor (applyOps st0 (walkOps already (outcomes.take j))) cid
        = changesFor (applyOps st0 (walkOps already outcomes)) cid ∨
      changesFor (applyOps st0 (walkOps already (outcomes.take j))) cid
        = changesFor st0 cid) ∧
    (cid < j →
      changesFor (applyOps st0 (walkOps already (outcomes.take j))) cid
        = changesFor (applyOps st0 (walkOps already outcomes)) cid) := by
  refine ⟨?_, ?_, ?_⟩
  · conv_lhs => rw [← List.take_append_drop j outcomes]
    unfold walkOps
    rw [walkOpsFrom_append]
    simp
  · rw [changesFor_applyOps, changesFor_applyOps]
    unfold walkOps
    rw [insertedChanges_walk, insertedChanges_walk]
    rcases writtenList_filter_take already 0 outcomes j cid hgood with h | h
    · left
      rw [h]
    · right
      rw [h]
      simp
  · intro hlt
    rw [changesFor_applyOps, changesFor_applyOps]
    unfold walkOps
    rw [insertedChanges_walk, insertedChanges_walk]
    rw [writtenList_filter_take_lt already 0 outcomes j cid hgood (by omega)]

theorem claim_C9_witness :
    changesFor
        (applyOps (Store.mk [] [])
          (walkOps []
            ([(CommitDict.mk "h0" 0 0 "a" "e",
               some [Entry.mk 0 0 (some "add") (some "package") (some "noetic"),
                     Entry.mk 0 1 (some "bump") (some "patch") (some "noetic")]),
              (CommitDict.mk "h1" 1 1 "a" "e",
               some [Entry.mk 1 0 (some "merge") none none])].take 1)))
        0
      = changesFor
          (applyOps (Store.mk [] [])
            (walkOps []
              [(CommitDict.mk "h0" 0 0 "a" "e",
                some [Entry.mk 0 0 (some "add") (some "package") (some "noetic"),
                      Entry.mk 0 1 (some "bump") (some "patch") (some "noetic")]),
               (CommitDict.mk "h1" 1 1 "a" "e",
                some [Entry.mk 1 0 (some "merge") none none])]))
          0 :=
  (claim_C9 (Store.mk [] []) []
    [(CommitDict.mk "h0" 0 0 "a" "e",
      some [Entry.mk 0 0 (some "add") (some "package") (some "noetic"),
            Entry.mk 0 1 (some "bump") (some "patch") (some "noetic")]),
     (CommitDict.mk "h1" 1 1 "a" "e",
      some [Entry.mk 1 0 (some "merge") none none])] 1 0
    (by exact ⟨by decide, by decide, trivial⟩)).2.2 (by decide)

theorem mem_idsWithChanges (st : Store) (n : Nat) :
    n ∈ idsWithChanges st ↔ ∃ e ∈ st.changes, e.commit_id = n := by
  unfold idsWithChanges
  rw [List.mem_dedup, List.mem_map]

theorem changesFor_ne_nil (st : Store) (n : Nat) :
    changesFor st n ≠ [] ↔ ∃ e ∈ st.changes, e.commit_id = n := by
  unfold changesFor
  constructor
  · intro h
    rcases List.exists_mem_of_ne_nil _ h with ⟨e, he⟩
    rcases List.mem_filter.mp he with ⟨hmem, hp⟩
    exact ⟨e, hmem, of_decide_eq_true hp⟩
  · rintro ⟨e, he, hn⟩ hnil
    have : e ∈ st.changes.filter (fun e => decide (e.commit_id = n)) :=
      List.mem_filter.mpr ⟨he, decide_eq_true hn⟩
    rw [hnil] at this
    cases this

theorem writtenList_filter_already (already : List Nat) (idx : Nat)
    (outcomes : List (CommitDict × Option (List Entry))) (cid : Nat)
    (hgood : goodIds idx outcomes) (hmem : cid ∈ already) :
    (writtenList already idx outcomes).filter
        (fun e => decide (e.commit_id = cid)) = [] := by
  induction outcomes generalizing idx with
  | nil => rfl
  | cons oc rest ih =>
    show ((if idx ∈ already then [] else written oc.2)
        ++ writtenList already (idx + 1) rest).filter
        (fun e => decide (e.commit_id = cid)) = []
    rw [List.filter_append, ih (idx + 1) hgood.2]
    by_cases hm : idx ∈ already
    · rw [if_pos hm]
      rfl
    · rw [if_neg hm]
      have hc : cid ≠ idx := by
        intro hh
        rw [hh] at hmem
        exact hm hmem
      have : (written oc.2).filter (fun e => decide (e.commit_id = cid)) = [] := by
        apply List.filter_eq_nil_iff.mpr
        intro e he
        rw [hgood.1 e he]
        simp only [decide_eq_true_eq]
        omega
      rw [this]
      rfl

theorem writtenList_filter_get (already : List Nat) (idx : Nat)
    (outcomes : List (CommitDict × Option (List Entry))) (k : Nat)
    (oc : CommitDict × Option (List Entry))
    (hgood : goodIds idx outcomes) (hk : outcomes.get? k = some oc) :
    (writtenList already idx outcomes).filter
        (fun e => decide (e.commit_id = idx + k))
      = if (idx + k) ∈ already then [] else written oc.2 := by
  induction outcomes generalizing idx k with
  | nil => cases hk
  | cons o rest ih =>
    cases k with
    | zero =>
      have hoc : o = oc := by
        have : some o = some oc := hk
        injection this
      subst hoc
      show ((if idx ∈ already then [] else written o.2)
          ++ writtenList already (idx + 1) rest).filter
          (fun e => decide (e.commit_id = idx + 0)) = _
      rw [List.filter_append]
      have hrest : (writtenList already (idx + 1) rest).filter
          (fun e => decide (e.commit_id = idx + 0)) = [] := by
        apply writtenList_filter_block already (idx + 1) rest _ hgood.2
        omega
      rw [hrest, List.append_nil]
      by_cases hm : idx ∈ already
      · rw [if_pos hm, if_pos (by simpa using hm)]
        rfl
      · rw [if_neg hm, if_neg (by simpa using hm)]
        apply List.filter_eq_self.mpr
        intro e he
        rw [hgood.1 e he]
        simp
    | succ k2 =>
      have hk2 : rest.get? k2 = some oc := hk
      show ((if idx ∈ already then [] else written o.2)
          ++ writtenList already (idx + 1) rest).filter
          (fun e => decide (e.commit_id = idx + (k2 + 1))) = _
      rw [List.filter_append]
      have hblk : ((if idx ∈ already then [] else written o.2) : List Entry).filter
          (fun e => decide (e.commit_id = idx + (k2 + 1))) = [] := by
        by_cases hm : idx ∈ already
        · rw [if_pos hm]
          rfl
        · rw [if_neg hm]
          apply List.filter_eq_nil_iff.mpr
          intro e he
          rw [hgood.1 e he]
          simp only [decide_eq_true_eq]
          omega
      rw [hblk, List.nil_append]
      have harith : idx + (k2 + 1) = (idx + 1) + k2 := by omega
      rw [harith, ih (idx + 1) k2 hgood.2 hk2]

/-- Claim C10: the walker's notion of already-classified is exactly the
set of commit ids possessing at least one change row, read from the
changes table at walk start; a commit not in that set has the full
written change set of its classification appended, an already-classified
commit id is untouched, and a commit whose classification writes nothing
(None, or a successfully classified empty diff) is indistinguishable
afterwards from an unclassified one: its membership in the
changes-derived set is unchanged, so every later walk classifies it
again. -/
theorem claim_C10 (st0 : Store)
    (outcomes : List (CommitDict × Option (List Entry)))
    (hgood : goodIds 0 outcomes) :
    (∀ (st : Store) (n : Nat),
      n ∈ idsWithChanges st ↔ ∃ e ∈ st.changes, e.commit_id = n) ∧
    (∀ cid oc, outcomes.get? cid = some oc → cid ∉ idsWithChanges st0 →
      changesFor (update_rosdistro st0 outcomes) cid
        = changesFor st0 cid ++ written oc.2) ∧
    (∀ cid, cid ∈ idsWithChanges st0 →
      changesFor (update_rosdistro st0 outcomes) cid = changesFor st0 cid) ∧
    (∀ cid oc, outcomes.get? cid = some oc → written oc.2 = [] →
      (cid ∈ idsWithChanges (update_rosdistro st0 outcomes) ↔
        cid ∈ idsWithChanges st0)) := by
  refine ⟨mem_idsWithChanges, ?_, ?_, ?_⟩
  · intro cid oc hget hnot
    unfold update_rosdistro
    rw [changesFor_applyOps]
    unfold walkOps
    rw [insertedChanges_walk]
    have h := writtenList_filter_get (idsWithChanges st0) 0 outcomes cid oc hgood hget
    rw [Nat.zero_add] at h
    rw [h, if_neg hnot]
  · intro cid hmem
    unfold update_rosdistro
    rw [changesFor_applyOps]
    unfold walkOps
    rw [insertedChanges_walk,
        writtenList_filter_already (idsWithChanges st0) 0 outcomes cid hgood hmem]
    simp
  · intro cid oc hget hempty
    have hsame : changesFor (update_rosdistro st0 outcomes) cid
        = changesFor st0 cid := by
      by_cases hmem : cid ∈ idsWithChanges st0
      · unfold update_rosdistro
        rw [changesFor_applyOps]
        unfold walkOps
        rw [insertedChanges_walk,
            writtenList_filter_already (idsWithChanges st0) 0 outcomes cid hgood hmem]
        simp
      · unfold update_rosdistro
        rw [changesFor_applyOps]
        unfold walkOps
        rw [insertedChanges_walk]
        have h := writtenList_filter_get (idsWithChanges st0) 0 outcomes cid oc hgood hget
        rw [Nat.zero_add] at h
        rw [h, if_neg hmem, hempty, List.append_nil]
    rw [mem_idsWithChanges, mem_idsWithChanges,
        ← changesFor_ne_nil, ← changesFor_ne_nil, hsame]

theorem claim_C10_witness :
    changesFor
        (update_rosdistro (Store.mk [] [])
          [(CommitDict.mk "h0" 0 0 "a" "e", none),
           (CommitDict.mk "h1" 1 1 "a" "e",
            some [Entry.mk 1 0 (some "merge") none none])])
        1
      = changesFor (Store.mk [] []) 1
        ++ written (some [Entry.mk 1 0 (some "merge") none none]) ∧
    ((0 : Nat) ∈ idsWithChanges
        (update_rosdistro (Store.mk [] [])
          [(CommitDict.mk "h0" 0 0 "a" "e", none),
           (CommitDict.mk "h1" 1 1 "a" "e",
            some [Entry.mk 1 0 (some "merge") none none])]) ↔
      (0 : Nat) ∈ idsWithChanges (Store.mk [] [])) := by
  constructor
  · exact (claim_C10 (Store.mk [] [])
      [(CommitDict.mk "h0" 0 0 "a" "e", none),
       (CommitDict.mk "h1" 1 1 "a" "e",
        some [Entry.mk 1 0 (some "merge") none none])]
      ⟨by decide, by decide, trivial⟩).2.1 1
      (CommitDict.mk "h1" 1 1 "a" "e",
        some [Entry.mk 1 0 (some "merge") none none]) rfl (by decide)
  · exact (claim_C10 (Store.mk [] [])
      [(CommitDict.mk "h0" 0 0 "a" "e", none),
       (CommitDict.mk "h1" 1 1 "a" "e",
        some [Entry.mk 1 0 (some "merge") none none])]
      ⟨by decide, by decide, trivial⟩).2.2.2 0
      (CommitDict.mk "h0" 0 0 "a" "e", none) rfl (by decide)

/-! ### rosdistro.check_tags: the per-(repo_id, distro) tag series

check_tags treats each (repo_id, distro) pair independently: the rows of
the tags table for that pair form a series of (id, tag, is_release,
date) rows.  The SQL aggregates are modelled as selection functions:
`SELECT ..., max(date) ... WHERE date <= ts` returns the row achieving
the maximal date at or before the checkpoint (the sqlite bare-column
rule), `SELECT ..., min(date) ... WHERE date > ts` the row achieving the
minimal later date.  The new checkpoint value is the (version,
is_release) pair computed by the caller; the fresh id allocated from the
in-memory id set is a parameter constrained to be unused. -/

structure TagRow where
  id : Nat
  tag : Option String
  is_release : Option Bool
  date : Nat
deriving DecidableEq, Repr

def valOf (r : TagRow) : Option String × Option Bool := (r.tag, r.is_release)

def maxAtOrBefore : List TagRow → Nat → Option TagRow
  | [], _ => none
  | r :: rest, ts =>
    match maxAtOrBefore rest ts with
    | none => if r.date ≤ ts then some r else none
    | some b =>
      if r.date ≤ ts then (if b.date < r.date then some r else some b) else some b

def minAfter : List TagRow → Nat → Option TagRow
  | [], _ => none
  | r :: rest, ts =>
    match minAfter rest ts with
    | none => if ts < r.date then some r else none
    | some b =>
      if ts < r.date then (if r.date < b.date then some r else some b) else some b

/-- The branch taken when the new value differs from the previous one:
merge into the earliest future row when its value matches, else insert a
fresh row at the checkpoint timestamp. -/
def tag_aft_branch (rows : List TagRow) (newTag : Option String)
    (newRel : Option Bool) (ts freshId : Nat) (aft : TagRow) : List TagRow :=
  if aft.tag = newTag ∧ aft.is_release = newRel then
    rows.map (fun r =>
      if r.id = aft.id then TagRow.mk r.id r.tag r.is_release ts else r)
  else rows ++ [TagRow.mk freshId newTag newRel ts]

def tag_after_check (rows : List TagRow) (newTag : Option String)
    (newRel : Option Bool) (ts freshId : Nat) : List TagRow :=
  match minAfter rows ts with
  | some aft => tag_aft_branch rows newTag newRel ts freshId aft
  | none => rows ++ [TagRow.mk freshId newTag newRel ts]

def tag_prev_branch (rows : List TagRow) (newTag : Option String)
    (newRel : Option Bool) (ts freshId : Nat) (prev : TagRow) : List TagRow :=
  if prev.tag = newTag ∧ prev.is_release = newRel then rows
  else tag_after_check rows newTag newRel ts freshId

/-- One (repo_id, distro) iteration of the check_tags loop body, after
the previous-value comparison with previous_dict.get (a missing previous
row never equals the (version, is_release) tuple). -/
def check_tag_step (rows : List TagRow) (newTag : Option String)
    (newRel : Option Bool) (ts freshId : Nat) : List TagRow :=
  match maxAtOrBefore rows ts with
  | some prev => tag_prev_branch rows newTag newRel ts freshId prev
  | none => tag_after_check rows newTag newRel ts freshId

theorem eq_of_nodup_map {α β : Type} (g : α → β) (l : List α)
    (h : (l.map g).Nodup) (a b : α) (ha : a ∈ l) (hb : b ∈ l)
    (hg : g a = g b) : a = b := by
  induction l with
  | nil => cases ha
  | cons x rest ih =>
    simp only [List.map_cons, List.nodup_cons] at h
    rcases List.mem_cons.mp ha with ha1 | ha1 <;>
      rcases List.mem_cons.mp hb with hb1 | hb1
    · rw [ha1, hb1]
    · exfalso
      apply h.1
      rw [← ha1, hg]
      exact List.mem_map.mpr ⟨b, hb1, rfl⟩
    · exfalso
      apply h.1
      rw [← hb1, ← hg]
      exact List.mem_map.mpr ⟨a, ha1, rfl⟩
    · exact ih h.2 ha1 hb1

theorem maxAtOrBefore_none (rows : List TagRow) (ts : Nat)
    (h : maxAtOrBefore rows ts = none) : ∀ r ∈ rows, ¬ r.date ≤ ts := by
  induction rows with
  | nil =>
    intro r hr
    cases hr
  | cons r rest ih =>
    intro q hq
    unfold maxAtOrBefore at h
    cases hrec : maxAtOrBefore rest ts with
    | none =>
      rw [hrec] at h
      by_cases hr : r.date ≤ ts
      · rw [if_pos hr] at h
        cases h
      · rw [if_neg hr] at h
        rcases List.mem_cons.mp hq with h1 | h1
        · rw [h1]
          exact hr
        · exact ih hrec q h1
    | some b =>
      rw [hrec] at h
      have h2 : (if r.date ≤ ts then (if b.date < r.date then some r else some b)
          else some b) = (none : Option TagRow) := h
      by_cases hr : r.date ≤ ts
      · rw [if_pos hr] at h2
        by_cases hc : b.date < r.date
        · rw [if_pos hc] at h2
          cases h2
        · rw [if_neg hc] at h2
          cases h2
      · rw [if_neg hr] at h2
        cases h2

theorem maxAtOrBefore_spec (rows : List TagRow) (ts : Nat) (m : TagRow)
    (h : maxAtOrBefore rows ts = some m) :
    m ∈ rows ∧ m.date ≤ ts ∧ ∀ r ∈ rows, r.date ≤ ts → r.date ≤ m.date := by
  induction rows generalizing m with
  | nil => cases h
  | cons r rest ih =>
    unfold maxAtOrBefore at h
    cases hrec : maxAtOrBefore rest ts with
    | none =>
      rw [hrec] at h
      by_cases hr : r.date ≤ ts
      · rw [if_pos hr] at h
        injection h with hm
        subst hm
        refine ⟨List.mem_cons_self r rest, hr, ?_⟩
        intro q hq hqts
        rcases List.mem_cons.mp hq with h1 | h1
        · rw [h1]
        · exact absurd hqts (maxAtOrBefore_none rest ts hrec q h1)
      · rw [if_neg hr] at h
        cases h
    | some b =>
      rw [hrec] at h
      have h2 : (if r.date ≤ ts then (if b.date < r.date then some r else some b)
          else some b) = some m := h
      have hb := ih b hrec
      by_cases hr : r.date ≤ ts
      · rw [if_pos hr] at h2
        by_cases hc : b.date < r.date
        · rw [if_pos hc] at h2
          injection h2 with hm
          subst hm
          refine ⟨List.mem_cons_self r rest, hr, ?_⟩
          intro q hq hqts
          rcases List.mem_cons.mp hq with h1 | h1
          · rw [h1]
          · have := hb.2.2 q h1 hqts
            omega
        · rw [if_neg hc] at h2
          injection h2 with hm
          subst hm
          refine ⟨List.mem_cons_of_mem r hb.1, hb.2.1, ?_⟩
          intro q hq hqts
          rcases List.mem_cons.mp hq with h1 | h1
          · rw [h1]
            omega
          · exact hb.2.2 q h1 hqts
      · rw [if_neg hr] at h2
        injection h2 with hm
        subst hm
        refine ⟨List.mem_cons_of_mem r hb.1, hb.2.1, ?_⟩
        intro q hq hqts
        rcases List.mem_cons.mp hq with h1 | h1
        · rw [h1] at hqts
          exact absurd hqts hr
        · exact hb.2.2 q h1 hqts

theorem minAfter_none (rows : List TagRow) (ts : Nat)
    (h : minAfter rows ts = none) : ∀ r ∈ rows, ¬ ts < r.date := by
  induction rows with
  | nil =>
    intro r hr
    cases hr
  | cons r rest ih =>
    intro q hq
    unfold minAfter at h
    cases hrec : minAfter rest ts with
    | none =>
      rw [hrec] at h
      by_cases hr : ts < r.date
      · rw [if_pos hr] at h
        cases h
      · rw [if_neg hr] at h
        rcases List.mem_cons.mp hq with h1 | h1
        · rw [h1]
          exact hr
        · exact ih hrec q h1
    | some b =>
      rw [hrec] at h
      have h2 : (if ts < r.date then (if r.date < b.date then some r else some b)
          else some b) = (none : Option TagRow) := h
      by_cases hr : ts < r.date
      · rw [if_pos hr] at h2
        by_cases hc : r.date < b.date
        · rw [if_pos hc] at h2
          cases h2
        · rw [if_neg hc] at h2
          cases h2
      · rw [if_neg hr] at h2
        cases h2

theorem minAfter_spec (rows : List TagRow) (ts : Nat) (m : TagRow)
    (h : minAfter rows ts = some m) :
    m ∈ rows ∧ ts < m.date ∧ ∀ r ∈ rows, ts < r.date → m.date ≤ r.date := by
  induction rows generalizing m with
  | nil => cases h
  | cons r rest ih =>
    unfold minAfter at h
    cases hrec : minAfter rest ts with
    | none =>
      rw [hrec] at h
      by_cases hr : ts < r.date
      · rw [if_pos hr] at h
        injection h with hm
        subst hm
        refine ⟨List.mem_cons_self r rest, hr, ?_⟩
        intro q hq hqts
        rcases List.mem_cons.mp hq with h1 | h1
        · rw [h1]
        · exact absurd hqts (minAfter_none rest ts hrec q h1)
      · rw [if_neg hr] at h
        cases h
    | some b =>
      rw [hrec] at h
      have h2 : (if ts < r.date then (if r.date < b.date then some r else some b)
          else some b) = some m := h
      have hb := ih b hrec
      by_cases hr : ts < r.date
      · rw [if_pos hr] at h2
        by_cases hc : r.date < b.date
        · rw [if_pos hc] at h2
          injection h2 with hm
          subst hm
          refine ⟨List.mem_cons_self r rest, hr, ?_⟩
          intro q hq hqts
          rcases List.mem_cons.mp hq with h1 | h1
          · rw [h1]
          · have := hb.2.2 q h1 hqts
            omega
        · rw [if_neg hc] at h2
          injection h2 with hm
          subst hm
          refine ⟨List.mem_cons_of_mem r hb.1, hb.2.1, ?_⟩
          intro q hq hqts
          rcases List.mem_cons.mp hq with h1 | h1
          · rw [h1]
            omega
          · exact hb.2.2 q h1 hqts
      · rw [if_neg hr] at h2
        injection h2 with hm
        subst hm
        refine ⟨List.mem_cons_of_mem r hb.1, hb.2.1, ?_⟩
        intro q hq hqts
        rcases List.mem_cons.mp hq with h1 | h1
        · rw [h1] at hqts
          exact absurd hqts hr
        · exact hb.2.2 q h1 hqts


/-- The tag series is a compacted change-point series: chronologically
adjacent rows (no third row strictly between their dates) carry
different (tag, is_release) values. -/
def Compacted (rows : List TagRow) : Prop :=
  ∀ r1 ∈ rows, ∀ r2 ∈ rows, r1.date < r2.date →
    (∀ r3 ∈ rows, ¬ (r1.date < r3.date ∧ r3.date < r2.date)) →
    valOf r1 ≠ valOf r2

theorem valOf_eq_pair (r : TagRow) (nT : Option String) (nR : Option Bool) :
    valOf r = (nT, nR) ↔ r.tag = nT ∧ r.is_release = nR := by
  unfold valOf
  rw [Prod.mk.injEq]

theorem check_tag_step_prev (rows : List TagRow) (nT : Option String)
    (nR : Option Bool) (ts fid : Nat) (prev : TagRow)
    (h : maxAtOrBefore rows ts = some prev) :
    check_tag_step rows nT nR ts fid = tag_prev_branch rows nT nR ts fid prev := by
  unfold check_tag_step
  rw [h]

theorem check_tag_step_noprev (rows : List TagRow) (nT : Option String)
    (nR : Option Bool) (ts fid : Nat)
    (h : maxAtOrBefore rows ts = none) :
    check_tag_step rows nT nR ts fid = tag_after_check rows nT nR ts fid := by
  unfold check_tag_step
  rw [h]

theorem tag_after_check_aft (rows : List TagRow) (nT : Option String)
    (nR : Option Bool) (ts fid : Nat) (aft : TagRow)
    (h : minAfter rows ts = some aft) :
    tag_after_check rows nT nR ts fid = tag_aft_branch rows nT nR ts fid aft := by
  unfold tag_after_check
  rw [h]

theorem tag_after_check_noaft (rows : List TagRow) (nT : Option String)
    (nR : Option Bool) (ts fid : Nat)
    (h : minAfter rows ts = none) :
    tag_after_check rows nT nR ts fid = rows ++ [TagRow.mk fid nT nR ts] := by
  unfold tag_after_check
  rw [h]

theorem check_tag_step_nomatch (rows : List TagRow) (nT : Option String)
    (nR : Option Bool) (ts fid : Nat)
    (hprev : ∀ prev, maxAtOrBefore rows ts = some prev → valOf prev ≠ (nT, nR)) :
    check_tag_step rows nT nR ts fid = tag_after_check rows nT nR ts fid := by
  cases hmax : maxAtOrBefore rows ts with
  | none => exact check_tag_step_noprev rows nT nR ts fid hmax
  | some prev =>
    rw [check_tag_step_prev rows nT nR ts fid prev hmax]
    unfold tag_prev_branch
    rw [if_neg]
    intro hh
    exact hprev prev hmax ((valOf_eq_pair prev nT nR).mpr hh)

theorem check_tag_step_cases (rows : List TagRow) (nT : Option String)
    (nR : Option Bool) (ts fid : Nat) :
    check_tag_step rows nT nR ts fid = rows ∨
    (∃ aft, minAfter rows ts = some aft ∧ valOf aft = (nT, nR) ∧
      (∀ prev, maxAtOrBefore rows ts = some prev → valOf prev ≠ (nT, nR)) ∧
      check_tag_step rows nT nR ts fid
        = rows.map (fun r =>
            if r.id = aft.id then TagRow.mk r.id r.tag r.is_release ts else r)) ∨
    ((∀ prev, maxAtOrBefore rows ts = some prev → valOf prev ≠ (nT, nR)) ∧
      (∀ aft, minAfter rows ts = some aft → valOf aft ≠ (nT, nR)) ∧
      check_tag_step rows nT nR ts fid = rows ++ [TagRow.mk fid nT nR ts]) := by
  by_cases hskip : ∃ prev, maxAtOrBefore rows ts = some prev ∧ valOf prev = (nT, nR)
  · left
    rcases hskip with ⟨prev, hmax, hval⟩
    rw [check_tag_step_prev rows nT nR ts fid prev hmax]
    unfold tag_prev_branch
    rw [if_pos ((valOf_eq_pair prev nT nR).mp hval)]
  · have hprev : ∀ prev, maxAtOrBefore rows ts = some prev →
        valOf prev ≠ (nT, nR) := by
      intro prev hmax hval
      exact hskip ⟨prev, hmax, hval⟩
    rw [check_tag_step_nomatch rows nT nR ts fid hprev]
    cases hmin : minAfter rows ts with
    | none =>
      right
      right
      refine ⟨hprev, ?_, tag_after_check_noaft rows nT nR ts fid hmin⟩
      intro aft hmm
      exact Option.noConfusion hmm
    | some aft =>
      rw [tag_after_check_aft rows nT nR ts fid aft hmin]
      unfold tag_aft_branch
      by_cases hva : aft.tag = nT ∧ aft.is_release = nR
      · right
        left
        refine ⟨aft, rfl, (valOf_eq_pair aft nT nR).mpr hva, hprev, ?_⟩
        rw [if_pos hva]
      · right
        right
        refine ⟨hprev, ?_, ?_⟩
        · intro aft2 hmm
          injection hmm with h
          intro hval
          rw [← h] at hval
          exact hva ((valOf_eq_pair aft nT nR).mp hval)
        · rw [if_neg hva]

theorem compacted_insert (rows : List TagRow) (nT : Option String)
    (nR : Option Bool) (ts fid : Nat)
    (hcomp : Compacted rows)
    (hdates : (rows.map TagRow.date).Nodup)
    (hts : ∀ r ∈ rows, r.date ≠ ts)
    (hprev : ∀ prev, maxAtOrBefore rows ts = some prev → valOf prev ≠ (nT, nR))
    (haft : ∀ aft, minAfter rows ts = some aft → valOf aft ≠ (nT, nR)) :
    Compacted (rows ++ [TagRow.mk fid nT nR ts]) := by
  intro r1 h1 r2 h2 hlt hnob
  have hsplit : ∀ x : TagRow, x ∈ rows ++ [TagRow.mk fid nT nR ts] →
      x ∈ rows ∨ x = TagRow.mk fid nT nR ts := by
    intro x hx
    rcases List.mem_append.mp hx with hx1 | hx1
    · exact Or.inl hx1
    · exact Or.inr (List.mem_singleton.mp hx1)
  rcases hsplit r1 h1 with h1r | h1n <;> rcases hsplit r2 h2 with h2r | h2n
  · apply hcomp r1 h1r r2 h2r hlt
    intro r3 h3 hb
    exact hnob r3 (List.mem_append_left _ h3) hb
  · have hr2date : r2.date = ts := by rw [h2n]
    rw [hr2date] at hlt
    cases hmax : maxAtOrBefore rows ts with
    | none => exact absurd (le_of_lt hlt) (maxAtOrBefore_none rows ts hmax r1 h1r)
    | some prev =>
      have hspec := maxAtOrBefore_spec rows ts prev hmax
      have hprevlt : prev.date < ts :=
        lt_of_le_of_ne hspec.2.1 (hts prev hspec.1)
      have hr1le : r1.date ≤ prev.date := hspec.2.2 r1 h1r (le_of_lt hlt)
      by_cases heq : r1.date = prev.date
      · have hr1p : r1 = prev :=
          eq_of_nodup_map TagRow.date rows hdates r1 prev h1r hspec.1 heq
        intro hh
        apply hprev prev hmax
        rw [← hr1p, hh, h2n]
        rfl
      · exfalso
        apply hnob prev (List.mem_append_left _ hspec.1)
        rw [hr2date]
        omega
  · have hr1date : r1.date = ts := by rw [h1n]
    rw [hr1date] at hlt
    cases hmin : minAfter rows ts with
    | none => exact absurd hlt (minAfter_none rows ts hmin r2 h2r)
    | some aft =>
      have hspec := minAfter_spec rows ts aft hmin
      have hle : aft.date ≤ r2.date := hspec.2.2 r2 h2r hlt
      by_cases heq : aft.date = r2.date
      · have hr2a : aft = r2 :=
          eq_of_nodup_map TagRow.date rows hdates aft r2 hspec.1 h2r heq
        intro hh
        apply haft aft hmin
        rw [hr2a, ← hh, h1n]
        rfl
      · exfalso
        apply hnob aft (List.mem_append_left _ hspec.1)
        rw [hr1date]
        have := hspec.2.1
        omega
  · rw [h1n, h2n] at hlt
    exact absurd hlt (lt_irrefl _)

theorem compacted_pull (rows : List TagRow) (ts : Nat) (aft : TagRow)
    (nT : Option String) (nR : Option Bool)
    (hcomp : Compacted rows)
    (hdates : (rows.map TagRow.date).Nodup)
    (hids : (rows.map TagRow.id).Nodup)
    (hts : ∀ r ∈ rows, r.date ≠ ts)
    (hmin : minAfter rows ts = some aft)
    (hva : valOf aft = (nT, nR))
    (hprev : ∀ prev, maxAtOrBefore rows ts = some prev → valOf prev ≠ (nT, nR)) :
    Compacted (rows.map (fun r =>
      if r.id = aft.id then TagRow.mk r.id r.tag r.is_release ts else r)) := by
  have hspec := minAfter_spec rows ts aft hmin
  have hvalf : ∀ r : TagRow,
      valOf (if r.id = aft.id then TagRow.mk r.id r.tag r.is_release ts else r)
        = valOf r := by
    intro r
    by_cases hr : r.id = aft.id
    · rw [if_pos hr]
      rfl
    · rw [if_neg hr]
  have hfr : ∀ r ∈ rows, r ≠ aft →
      (if r.id = aft.id then TagRow.mk r.id r.tag r.is_release ts else r) = r := by
    intro r hr hne
    rw [if_neg]
    intro hh
    exact hne (eq_of_nodup_map TagRow.id rows hids r aft hr hspec.1 hh)
  have hfa : (if aft.id = aft.id then TagRow.mk aft.id aft.tag aft.is_release ts
      else aft) = TagRow.mk aft.id aft.tag aft.is_release ts := by
    rw [if_pos rfl]
  intro x1 hx1 x2 hx2 hlt hnob
  rcases List.mem_map.mp hx1 with ⟨r1, hr1, hfx1⟩
  rcases List.mem_map.mp hx2 with ⟨r2, hr2, hfx2⟩
  subst hfx1
  subst hfx2
  rw [hvalf r1, hvalf r2]
  by_cases he1 : r1 = aft <;> by_cases he2 : r2 = aft
  · rw [he1, he2] at hlt
    exact absurd hlt (lt_irrefl _)
  · rw [he1] at hlt ⊢
    rw [hfa, hfr r2 hr2 he2] at hlt
    have hlt2 : ts < r2.date := hlt
    have haftlt : aft.date < r2.date := by
      have hle := hspec.2.2 r2 hr2 hlt2
      have hne : aft.date ≠ r2.date := by
        intro hh
        exact he2 (eq_of_nodup_map TagRow.date rows hdates aft r2
          hspec.1 hr2 hh).symm
      omega
    apply hcomp aft hspec.1 r2 hr2 haftlt
    intro r3 h3 hb
    have hne3 : r3 ≠ aft := by
      intro hh
      rw [hh] at hb
      omega
    apply hnob (if r3.id = aft.id then TagRow.mk r3.id r3.tag r3.is_release ts
      else r3) (List.mem_map_of_mem _ h3)
    rw [hfr r3 h3 hne3, he1, hfa, hfr r2 hr2 he2]
    refine ⟨?_, hb.2⟩
    show ts < r3.date
    have := hspec.2.1
    omega
  · rw [he2] at hlt ⊢
    rw [hfa, hfr r1 hr1 he1] at hlt
    have hlt1 : r1.date < ts := hlt
    cases hmax : maxAtOrBefore rows ts with
    | none => exact absurd (le_of_lt hlt1) (maxAtOrBefore_none rows ts hmax r1 hr1)
    | some prev =>
      have hpspec := maxAtOrBefore_spec rows ts prev hmax
      have hprevlt : prev.date < ts :=
        lt_of_le_of_ne hpspec.2.1 (hts prev hpspec.1)
      have hr1le : r1.date ≤ prev.date := hpspec.2.2 r1 hr1 (le_of_lt hlt1)
      by_cases heq : r1.date = prev.date
      · have hr1p : r1 = prev :=
          eq_of_nodup_map TagRow.date rows hdates r1 prev hr1 hpspec.1 heq
        intro hh
        apply hprev prev hmax
        rw [← hr1p, hh, hva]
      · exfalso
        have hplt : r1.date < prev.date := by omega
        have hne : prev ≠ aft := by
          intro hh
          rw [hh] at hprevlt
          have := hspec.2.1
          omega
        apply hnob (if prev.id = aft.id then
            TagRow.mk prev.id prev.tag prev.is_release ts else prev)
          (List.mem_map_of_mem _ hpspec.1)
        rw [hfr prev hpspec.1 hne, hfr r1 hr1 he1, he2, hfa]
        refine ⟨hplt, ?_⟩
        show prev.date < ts
        exact hprevlt
  · rw [hfr r1 hr1 he1, hfr r2 hr2 he2] at hlt
    apply hcomp r1 hr1 r2 hr2 hlt
    intro r3 h3 hb
    by_cases hne3 : r3 = aft
    · rw [hne3] at hb
      by_cases hpos : ts < r1.date
      · have := hspec.2.2 r1 hr1 hpos
        omega
      · have hr1ts : r1.date < ts := by
          have := hts r1 hr1
          omega
        apply hnob (if aft.id = aft.id then
            TagRow.mk aft.id aft.tag aft.is_release ts else aft)
          (List.mem_map_of_mem _ hspec.1)
        rw [hfa, hfr r1 hr1 he1, hfr r2 hr2 he2]
        refine ⟨?_, ?_⟩
        · show r1.date < ts
          exact hr1ts
        · show ts < r2.date
          have := hspec.2.1
          omega
    · apply hnob (if r3.id = aft.id then TagRow.mk r3.id r3.tag r3.is_release ts
        else r3) (List.mem_map_of_mem _ h3)
      rw [hfr r3 h3 hne3, hfr r1 hr1 he1, hfr r2 hr2 he2]
      exact hb

/-- Claim C3 counterexample: the series holds X at 10 and Y at 20; a
checkpoint at timestamp 5 with value Y matches an existing later row
(the one at 20), yet the code compares only against the earliest future
row (X at 10), so it inserts a fresh Y row at 5 and leaves the Y row at
20 untouched, contradicting the claim that a matching future row's date
is pulled backward instead of inserting. -/
theorem claim_C3_cex :
    check_tag_step
        [TagRow.mk 0 (some "X") (some true) 10,
         TagRow.mk 1 (some "Y") (some true) 20]
        (some "Y") (some true) 5 2
      = [TagRow.mk 0 (some "X") (some true) 10,
         TagRow.mk 1 (some "Y") (some true) 20,
         TagRow.mk 2 (some "Y") (some true) 5] ∧
    (∃ r ∈ [TagRow.mk 0 (some "X") (some true) 10,
            TagRow.mk 1 (some "Y") (some true) 20],
      5 < r.date ∧ r.tag = some "Y" ∧ r.is_release = some true) ∧
    TagRow.mk 1 (some "Y") (some true) 20 ∈
      check_tag_step
        [TagRow.mk 0 (some "X") (some true) 10,
         TagRow.mk 1 (some "Y") (some true) 20]
        (some "Y") (some true) 5 2 := by
  refine ⟨by decide, ?_, by decide⟩
  refine ⟨TagRow.mk 1 (some "Y") (some true) 20, ?_, by decide, rfl, rfl⟩
  decide

/-- Claim C3 (amended): per (repo_id, distro), a checkpoint equal in
(tag, is_release) to the most recent row at or before its timestamp
writes nothing; otherwise, if it equals the earliest row dated after the
timestamp, that row's date is pulled backward to the timestamp instead
of inserting; otherwise a new row with a fresh unused id is inserted at
the timestamp; fresh ids keep the id column duplicate-free, and the step
preserves the compacted-series invariant: no two chronologically
adjacent rows share the same (tag, is_release). -/
theorem claim_C3 (rows : List TagRow) (newTag : Option String)
    (newRel : Option Bool) (ts freshId : Nat) :
    (∀ prev, maxAtOrBefore rows ts = some prev → valOf prev = (newTag, newRel) →
      check_tag_step rows newTag newRel ts freshId = rows) ∧
    (∀ aft,
      (∀ prev, maxAtOrBefore rows ts = some prev →
        valOf prev ≠ (newTag, newRel)) →
      minAfter rows ts = some aft → valOf aft = (newTag, newRel) →
      check_tag_step rows newTag newRel ts freshId
        = rows.map (fun r =>
            if r.id = aft.id then TagRow.mk r.id r.tag r.is_release ts else r)) ∧
    ((∀ prev, maxAtOrBefore rows ts = some prev →
        valOf prev ≠ (newTag, newRel)) →
      (∀ aft, minAfter rows ts = some aft → valOf aft ≠ (newTag, newRel)) →
      check_tag_step rows newTag newRel ts freshId
        = rows ++ [TagRow.mk freshId newTag newRel ts]) ∧
    ((rows.map TagRow.id).Nodup → freshId ∉ rows.map TagRow.id →
      ((check_tag_step rows newTag newRel ts freshId).map TagRow.id).Nodup) ∧
    (Compacted rows → (rows.map TagRow.date).Nodup →
      (rows.map TagRow.id).Nodup → (∀ r ∈ rows, r.date ≠ ts) →
      Compacted (check_tag_step rows newTag newRel ts freshId)) := by
  refine ⟨?_, ?_, ?_, ?_, ?_⟩
  · intro prev hmax hval
    rw [check_tag_step_prev rows newTag newRel ts freshId prev hmax]
    unfold tag_prev_branch
    rw [if_pos ((valOf_eq_pair prev newTag newRel).mp hval)]
  · intro aft hprev hmin hva
    rw [check_tag_step_nomatch rows newTag newRel ts freshId hprev,
        tag_after_check_aft rows newTag newRel ts freshId aft hmin]
    unfold tag_aft_branch
    rw [if_pos ((valOf_eq_pair aft newTag newRel).mp hva)]
  · intro hprev haft
    rw [check_tag_step_nomatch rows newTag newRel ts freshId hprev]
    cases hmin : minAfter rows ts with
    | none => exact tag_after_check_noaft rows newTag newRel ts freshId hmin
    | some aft =>
      rw [tag_after_check_aft rows newTag newRel ts freshId aft hmin]
      unfold tag_aft_branch
      rw [if_neg]
      intro hh
      exact haft aft hmin ((valOf_eq_pair aft newTag newRel).mpr hh)
  · intro hids hfresh
    rcases check_tag_step_cases rows newTag newRel ts freshId with
      h | ⟨aft, _, _, _, h⟩ | ⟨_, _, h⟩
    · rw [h]
      exact hids
    · rw [h]
      have hsame : (rows.map (fun r =>
          if r.id = aft.id then TagRow.mk r.id r.tag r.is_release ts else r)).map
          TagRow.id = rows.map TagRow.id := by
        rw [List.map_map]
        apply List.map_congr_left
        intro r _
        by_cases hr : r.id = aft.id
        · simp [hr]
        · simp [hr]
      rw [hsame]
      exact hids
    · rw [h, List.map_append]
      rw [List.nodup_append]
      refine ⟨hids, List.nodup_singleton _, ?_⟩
      intro a ha hasing
      have : a = freshId := by
        have : a ∈ [freshId] := hasing
        exact List.mem_singleton.mp this
      rw [this] at ha
      exact hfresh ha
  · intro hcomp hdates hids hts
    rcases check_tag_step_cases rows newTag newRel ts freshId with
      h | ⟨aft, hmin, hva, hprev, h⟩ | ⟨hprev, haft, h⟩
    · rw [h]
      exact hcomp
    · rw [h]
      exact compacted_pull rows ts aft newTag newRel hcomp hdates hids hts
        hmin hva hprev
    · rw [h]
      exact compacted_insert rows newTag newRel ts freshId hcomp hdates hts
        hprev haft

theorem claim_C3_witness :
    check_tag_step [TagRow.mk 0 (some "1.0") (some true) 10]
        (some "1.0") (some true) 20 5
      = [TagRow.mk 0 (some "1.0") (some true) 10] ∧
    check_tag_step [TagRow.mk 0 (some "1.0") (some true) 10]
        (some "2.0") (some true) 20 5
      = [TagRow.mk 0 (some "1.0") (some true) 10,
         TagRow.mk 5 (some "2.0") (some true) 20] ∧
    Compacted (check_tag_step
        [TagRow.mk 0 (some "1.0") (some true) 10]
        (some "2.0") (some true) 20 5) := by
  have hmax : maxAtOrBefore [TagRow.mk 0 (some "1.0") (some true) 10] 20
      = some (TagRow.mk 0 (some "1.0") (some true) 10) := by decide
  have hcomp1 : Compacted [TagRow.mk 0 (some "1.0") (some true) 10] := by
    intro r1 h1 r2 h2 hlt _
    have e1 : r1 = TagRow.mk 0 (some "1.0") (some true) 10 :=
      List.mem_singleton.mp h1
    have e2 : r2 = TagRow.mk 0 (some "1.0") (some true) 10 :=
      List.mem_singleton.mp h2
    rw [e1, e2] at hlt
    exact absurd hlt (lt_irrefl _)
  refine ⟨?_, ?_, ?_⟩
  · exact (claim_C3 [TagRow.mk 0 (some "1.0") (some true) 10]
      (some "1.0") (some true) 20 5).1
      (TagRow.mk 0 (some "1.0") (some true) 10) hmax rfl
  · exact (claim_C3 [TagRow.mk 0 (some "1.0") (some true) 10]
      (some "2.0") (some true) 20 5).2.2.1
      (by
        intro prev hmax2 hval
        rw [hmax] at hmax2
        injection hmax2 with hp
        rw [← hp] at hval
        exact absurd hval (by decide))
      (by
        intro aft hmin
        have : minAfter [TagRow.mk 0 (some "1.0") (some true) 10] 20 = none := by
          decide
        rw [this] at hmin
        cases hmin)
  · exact (claim_C3 [TagRow.mk 0 (some "1.0") (some true) 10]
      (some "2.0") (some true) 20 5).2.2.2.2 hcomp1 (by decide) (by decide)
      (by
        intro r hr
        have : r = TagRow.mk 0 (some "1.0") (some true) 10 :=
          List.mem_singleton.mp hr
        rw [this]
        decide)

end RosMetrics
